import Mathlib

/-!
# kNet `DataDeserializer`: a shallow embedding

The embedding follows `include/kNet/DataDeserializer.h`.

* The four cursor fields of the class are the fields of `DataDeserializer`; the
  schema walker (`Ptr(SerializedDataIterator) iter`) is an optional value of an
  arbitrary type `W`, and `iter->ProceedToNextVariable()` is a parameter
  `proceed : W → W`, because `SerializedDataIterator.h` is not part of the
  sources at hand.
* `u32` results are natural numbers reduced modulo `2 ^ 32` wherever the C++
  expression can leave the 32-bit range.
* `assert(..)` lines are compiled out of release builds and are not embedded.
* Operations that may leave their contract (a read behind the end of the
  buffer, a shift by 32 or more) return `none`.
-/

namespace kNet

/-- The state of a `DataDeserializer` (DataDeserializer.h:32-41): the buffer `data` with its
length `size` in bytes, the next byte `elemOfs`, the next bit `bitOfs` of that byte and the
optional schema walker `iter`. -/
structure DataDeserializer (W : Type) where
  data : List Nat
  size : Nat
  elemOfs : Nat
  bitOfs : Nat
  iter : Option W
  deriving DecidableEq, Repr

variable {W : Type}

/-- The constant `VLEReadError` (DataDeserializer.h:74), also `cStreamEndError` (line 137). -/
def VLEReadError : Nat := 0xFFFFFFFF

/-- The query `BytesLeft()` (DataDeserializer.h:97):
`(u32)((elemOfs >= size) ? 0 : (size - elemOfs))`. -/
def BytesLeft (s : DataDeserializer W) : Nat :=
  if s.elemOfs ≥ s.size then 0 else (s.size - s.elemOfs) % 4294967296

/-- The query `BitsLeft()` (DataDeserializer.h:100):
`(u32)((elemOfs >= size) ? 0 : ((size - elemOfs)*8 - bitOfs))`; the subtraction of `bitOfs`
is done in the integers and reduced modulo `2 ^ 32` as the unsigned arithmetic of C++ does. -/
def BitsLeft (s : DataDeserializer W) : Nat :=
  if s.elemOfs ≥ s.size then 0
  else ((((s.size - s.elemOfs : Nat) : Int) * 8 - (s.bitOfs : Int)) % 4294967296).toNat

/-- The query `BytePos()` (DataDeserializer.h:103): `(u32)elemOfs`. -/
def BytePos (s : DataDeserializer W) : Nat := s.elemOfs % 4294967296

/-- The query `BitPos()` (DataDeserializer.h:106): `bitOfs` converted to `u32`. -/
def BitPos (s : DataDeserializer W) : Nat := s.bitOfs % 4294967296

/-- The logical bit position `byteOffset*8 + bitOffset` of the cursor (spec, section 3). -/
def logicalPos (s : DataDeserializer W) : Nat := s.elemOfs * 8 + s.bitOfs

/-- Bit `p mod 8` (counted from the least significant bit) of buffer byte `p div 8`. -/
def streamBit (data : List Nat) (p : Nat) : Nat := (data.getD (p / 8) 0 / 2 ^ (p % 8)) % 2

/-- Modelled from the spec: the two constructors followed by `ResetTraversal()`, whose body is in
the missing `DataDeserializer.cpp`; the spec (section 3) says the cursor is reset to the start.
The buffer length is the `size_` argument. -/
def DataDeserializer.init (data : List Nat) (iter : Option W) : DataDeserializer W :=
  { data := data, size := data.length, elemOfs := 0, bitOfs := 0, iter := iter }

/-- Modelled from the spec: reading one bit, the step of `ReadBitsToU32`
(`DataDeserializer.cpp` is missing). The bit at the logical position is taken, "LSB-first
within each byte", and the cursor moves to the next logical position. -/
def readBit (s : DataDeserializer W) : Nat × DataDeserializer W :=
  (streamBit s.data (logicalPos s),
    { s with elemOfs := (logicalPos s + 1) / 8, bitOfs := (logicalPos s + 1) % 8 })

/-- Modelled from the spec: the loop of `ReadBitsToU32` (`DataDeserializer.cpp` is missing):
"reads `numBits` consecutive bits starting at the current cursor position, LSB-first within
each byte, packs them into the low `numBits` bits of the result, and advances the cursor by
`numBits`" (spec, section 4.1). The first bit read is bit 0 of the result. -/
def readBitsLoop : Nat → DataDeserializer W → Nat × DataDeserializer W
  | 0, s => (0, s)
  | n + 1, s =>
    let r := readBit s
    let q := readBitsLoop n r.2
    (r.1 + 2 * q.1, q.2)

/-- Modelled from the spec: the private `u32 ReadBitsToU32(int count)`, declared at
DataDeserializer.h:43 with its body in the missing `DataDeserializer.cpp`. The spec
(section 4.1) gives the precondition "`numBits` in [1,32] and sufficient bits remain"; outside
of it the call takes the error path, `none` here. -/
def ReadBitsToU32 (count : Nat) (s : DataDeserializer W) : Option (Nat × DataDeserializer W) :=
  if 1 ≤ count ∧ count ≤ 32 ∧ count ≤ BitsLeft s then some (readBitsLoop count s) else none

/-- Modelled from the spec: the public `u32 ReadBits(int numBits)`, declared at
DataDeserializer.h:92 with its body in the missing `DataDeserializer.cpp`; the spec
(section 4.1) describes it as the raw bit read and names no effect on the schema walker. -/
def ReadBits (numBits : Nat) (s : DataDeserializer W) : Option (Nat × DataDeserializer W) :=
  ReadBitsToU32 numBits s

/-- The loop of `Read<T>` (DataDeserializer.h:125-126):
`for(int i = 0; i < sizeof(value); ++i) data[i] = (u8)ReadBitsToU32(8);`
The result lists the bytes `data[0], data[1], ..` of the object representation of `value`. -/
def ReadBytes : Nat → DataDeserializer W → Option (List Nat × DataDeserializer W)
  | 0, s => some ([], s)
  | n + 1, s =>
    match ReadBitsToU32 8 s with
    | none => none
    | some (b, s1) =>
      match ReadBytes n s1 with
      | none => none
      | some (bs, s2) => some (b % 256 :: bs, s2)

/-- The template `T DataDeserializer::Read()` (DataDeserializer.h:118-132) for a type `T` of
`k = sizeof(T)` bytes other than `bit`. The value is returned as its `k` bytes, in memory
order. -/
def Read (proceed : W → W) (k : Nat) (s : DataDeserializer W) :
    Option (List Nat × DataDeserializer W) :=
  match ReadBytes k s with
  | none => none
  | some (bs, s1) => some (bs, { s1 with iter := s1.iter.map proceed })

/-- The number that a little-endian host reads from the bytes of an unsigned value. -/
def leValue : List Nat → Nat
  | [] => 0
  | b :: bs => b + 256 * leValue bs

/-- Modelled from the spec: the byte pattern the encoder (not part of the sources at hand)
writes for a `k`-byte value `v`, "little-endian byte order matching the host's in-memory
layout" (spec, section 4.1). -/
def leBytes : Nat → Nat → List Nat
  | 0, _ => []
  | k + 1, v => v % 256 :: leBytes k (v / 256)

/-- The path a `ReadVLE` call takes through its body: one of the three
`if (BitsLeft() < ..) return cStreamEndError;` exits, or one of the three value returns. -/
inductive VLEPath where
  | exhausted1
  | tier1
  | exhausted2
  | tier2
  | exhausted3
  | tier3
  deriving DecidableEq, Repr

/-- The template `u32 DataDeserializer::ReadVLE()` (DataDeserializer.h:134-161) for a type
with the widths `numBits1`, `numBits2`, `numBits3`, together with the exit it leaves by.
A shift by 32 or more has no defined result and gives `none`. -/
def ReadVLEPath (numBits1 numBits2 numBits3 : Nat) (s : DataDeserializer W) :
    Option (VLEPath × Nat × DataDeserializer W) :=
  if BitsLeft s < numBits1 + 1 then some (VLEPath.exhausted1, VLEReadError, s)
  else
    match ReadBits (numBits1 + 1) s with
    | none => none
    | some (sml0, s1) =>
      if sml0 &&& (1 <<< numBits1) = 0 then some (VLEPath.tier1, sml0, s1)
      else
        let sml := sml0 &&& ((1 <<< numBits1) - 1)
        let numBitsMed := numBits2 + (if numBits3 = 0 then 0 else 1)
        if BitsLeft s1 < numBitsMed then some (VLEPath.exhausted2, VLEReadError, s1)
        else
          match ReadBits numBitsMed s1 with
          | none => none
          | some (med0, s2) =>
            if 32 ≤ numBits2 then none
            else if med0 &&& (1 <<< numBits2) = 0 then
              some (VLEPath.tier2, sml ||| ((med0 <<< numBits1) % 4294967296), s2)
            else if BitsLeft s2 < numBits3 then some (VLEPath.exhausted3, VLEReadError, s2)
            else
              let med := med0 &&& ((1 <<< numBits2) - 1)
              match ReadBits numBits3 s2 with
              | none => none
              | some (large, s3) =>
                if 32 ≤ numBits1 + numBits2 then none
                else
                  some (VLEPath.tier3,
                    sml ||| ((med <<< numBits1) % 4294967296)
                      ||| ((large <<< (numBits1 + numBits2)) % 4294967296), s3)

/-- The return value and final state of `ReadVLE` (DataDeserializer.h:134-161). -/
def ReadVLE (numBits1 numBits2 numBits3 : Nat) (s : DataDeserializer W) :
    Option (Nat × DataDeserializer W) :=
  (ReadVLEPath numBits1 numBits2 numBits3 s).map (fun r => (r.2.1, r.2.2))

/-- The loop of `ReadArray<T>` (DataDeserializer.h:166-167):
`for(size_t i = 0; i < numElems; ++i) dst[i] = Read<T>();` with `n` iterations still to run
and the index at `i`. -/
def ReadArrayLoop (proceed : W → W) (k : Nat) :
    Nat → Nat → List (List Nat) → DataDeserializer W →
      Option (List (List Nat) × DataDeserializer W)
  | 0, _, dst, s => some (dst, s)
  | n + 1, i, dst, s =>
    match Read proceed k s with
    | none => none
    | some (v, s1) => ReadArrayLoop proceed k n (i + 1) (dst.set i v) s1

/-- The template `void DataDeserializer::ReadArray(T *dst, size_t numElems)`
(DataDeserializer.h:163-174) for an element type of `k` bytes other than `bit`. The caller's
storage `dst` is a parameter and is returned as the call leaves it. -/
def ReadArray (proceed : W → W) (k : Nat) (dst : List (List Nat)) (numElems : Nat)
    (s : DataDeserializer W) : Option (List (List Nat) × DataDeserializer W) :=
  match ReadArrayLoop proceed k numElems 0 dst s with
  | none => none
  | some (dst1, s1) =>
    some (dst1, if numElems = 0 then { s1 with iter := s1.iter.map proceed } else s1)

/-- The results and the final state of `n` successive `Read<T>()` calls. -/
def ReadSeq (proceed : W → W) (k : Nat) :
    Nat → DataDeserializer W → Option (List (List Nat) × DataDeserializer W)
  | 0, s => some ([], s)
  | n + 1, s =>
    match Read proceed k s with
    | none => none
    | some (v, s1) =>
      match ReadSeq proceed k n s1 with
      | none => none
      | some (vs, s2) => some (v :: vs, s2)

/-- The state `s` with the cursor moved `n` bits on. -/
def advance (n : Nat) (s : DataDeserializer W) : DataDeserializer W :=
  { s with elemOfs := (logicalPos s + n) / 8, bitOfs := (logicalPos s + n) % 8 }

/-- The state `t` is the state `s` after `m` bits were consumed: the buffer is the same, the
cursor of `t` lies `m` bits behind that of `s` with `bitOfs` in `[0,7]`, and `BitsLeft()` went
down by `m`. -/
def Moved (m : Nat) (s t : DataDeserializer W) : Prop :=
  t.data = s.data ∧ t.size = s.size ∧ t.bitOfs < 8 ∧ logicalPos t = logicalPos s + m ∧
    BitsLeft t + m = BitsLeft s

/-- The number of bits a `ReadVLE` call asks `ReadBits` for on a path that returns a decoded
value: the sum of the `numBits` arguments of lines 142, 151 and 159 of DataDeserializer.h. -/
def vleBits (numBits1 numBits2 numBits3 : Nat) : VLEPath → Option Nat
  | VLEPath.tier1 => some (numBits1 + 1)
  | VLEPath.tier2 => some (numBits1 + 1 + (numBits2 + (if numBits3 = 0 then 0 else 1)))
  | VLEPath.tier3 => some (numBits1 + 1 + (numBits2 + 1) + numBits3)
  | _ => none

/-- One call of a read operation of the class. -/
inductive Op where
  | readBits (numBits : Nat)
  | read (k : Nat)
  | readArray (k numElems : Nat)
  | readVLE (numBits1 numBits2 numBits3 : Nat)

/-- A successful call of a read operation: the number of bits the call asked for and the state
it leaves. A `ReadVLE` call that leaves by an exhaustion exit is not successful. -/
def Op.run (proceed : W → W) : Op → DataDeserializer W → Option (Nat × DataDeserializer W)
  | Op.readBits numBits, s => (ReadBits numBits s).map (fun r => (numBits, r.2))
  | Op.read k, s => (Read proceed k s).map (fun r => (8 * k, r.2))
  | Op.readArray k numElems, s =>
    (ReadArray proceed k (List.replicate numElems []) numElems s).map
      (fun r => (numElems * (8 * k), r.2))
  | Op.readVLE n1 n2 n3, s =>
    match ReadVLEPath n1 n2 n3 s with
    | none => none
    | some (p, _, t) => (vleBits n1 n2 n3 p).map (fun b => (b, t))

/-- A sequence of successful read calls: the total number of bits asked for and the final
state. -/
def runOps (proceed : W → W) : List Op → DataDeserializer W → Option (Nat × DataDeserializer W)
  | [], s => some (0, s)
  | op :: ops, s =>
    match op.run proceed s with
    | none => none
    | some (b, t) =>
      match runOps proceed ops t with
      | none => none
      | some (c, u) => some (b + c, u)

/-- Modelled from the spec: the validation of one character of `ReadString`, whose body is in
the missing `DataDeserializer.cpp`: "ASCII 32-253 plus carriage return (0x0D), line feed
(0x0A), and tab (0x09)" are kept, "any other byte value is replaced with a space (0x20)"
(spec, section 4.4; the same list is in the comment at DataDeserializer.h:85-86). -/
def sanitizeChar (b : Nat) : Nat :=
  if (32 ≤ b ∧ b ≤ 253) ∨ b = 0x0D ∨ b = 0x0A ∨ b = 0x09 then b else 0x20

/-- Modelled from the spec: the raw bytes of a string read without a template, "a single
length-prefix byte (0-255) followed by that many raw bytes, no null terminator" (spec,
section 4.4). -/
def readLengthPrefixed (s : DataDeserializer W) : Option (List Nat × DataDeserializer W) :=
  match ReadBitsToU32 8 s with
  | none => none
  | some (len, s1) => ReadBytes len s1

/-- Modelled from the spec: `std::string ReadString()`, declared at DataDeserializer.h:88 with
its body in the missing `DataDeserializer.cpp`. With a template "the template dictates exact
storage"; that read is the parameter `fromTemplate`. Without one the string is stored
length-prefixed. "Every byte read is validated against an allow-list" (spec, section 4.4).
The string is returned as the list of its character codes. -/
def ReadString (fromTemplate : DataDeserializer W → Option (List Nat × DataDeserializer W))
    (s : DataDeserializer W) : Option (List Nat × DataDeserializer W) :=
  match (match s.iter with
    | some _ => fromTemplate s
    | none => readLengthPrefixed s) with
  | none => none
  | some (bs, t) => some (bs.map sanitizeChar, t)

/-! ### Logging (`NetworkLogging.h`, `NetworkLogging.cpp`) -/

/-- The channel `LogUser` (NetworkLogging.h:27). -/
def LogUser : Nat := 1

/-- The channel `LogInfo` (NetworkLogging.h:28). -/
def LogInfo : Nat := 2

/-- The channel `LogError` (NetworkLogging.h:29). -/
def LogError : Nat := 4

/-- The channel `LogObjectAlloc` (NetworkLogging.h:30). -/
def LogObjectAlloc : Nat := 8

/-- The channel `LogData` (NetworkLogging.h:31). -/
def LogData : Nat := 16

/-- The channel `LogVerbose` (NetworkLogging.h:32). -/
def LogVerbose : Nat := 32

/-- The process-wide state of the logging facility (NetworkLogging.cpp:40-48): the mask
`kNetActiveLogChannels`, the stream `kNetLogFile` (`none` while it is not open, otherwise the
lines written to it), the lines written to `std::cout`, and the static `firstCall` of
`Time()`. -/
structure LogState where
  kNetActiveLogChannels : Nat
  kNetLogFile : Option (List String)
  cout : List String
  firstCall : Bool
  deriving DecidableEq, Repr

/-- The state at program start: `LogChannel kNetActiveLogChannels = LogUser;`
(NetworkLogging.cpp:41), the log file not open, `firstCall = true` (line 48). -/
def LogState.initial : LogState :=
  { kNetActiveLogChannels := LogUser, kNetLogFile := none, cout := [], firstCall := true }

/-- The function `Time()` (NetworkLogging.cpp:45-59). The text of the seconds elapsed since the
first call comes from the clock, which is outside of the sources at hand, and is the
parameter `clock`. -/
def Time (clock : String) (st : LogState) : String × LogState :=
  if st.firstCall then ("0.000", { st with firstCall := false }) else (clock, st)

/-- The output statement of both logging functions (NetworkLogging.cpp:73-76 and 89-92): the
line goes to `kNetLogFile` if that is open and to `std::cout` otherwise. -/
def writeLogLine (errorStr : String) (clock : String) (st : LogState) : LogState :=
  let r := Time clock st
  let line := r.1 ++ ": " ++ errorStr
  match r.2.kNetLogFile with
  | some ls => { r.2 with kNetLogFile := some (ls ++ [line]) }
  | none => { r.2 with cout := r.2.cout ++ [line] }

/-- The function `TimeOutputDebugString` (NetworkLogging.cpp:81-93); `_snprintf` with the
size 1023 keeps at most 1022 characters of `msg`. -/
def TimeOutputDebugString (logChannel : Nat) (msg : String) (clock : String) (st : LogState) :
    LogState :=
  if logChannel &&& st.kNetActiveLogChannels = 0 then st
  else writeLogLine (String.mk (msg.data.take 1022)) clock st

/-- The function `TimeOutputDebugStringVariadic` (NetworkLogging.cpp:63-79); `formatted` is
the text `msg` expands to with its arguments, of which `vsnprintf` with the size 1023 keeps at
most 1022 characters. -/
def TimeOutputDebugStringVariadic (logChannel : Nat) (formatted : String) (clock : String)
    (st : LogState) : LogState :=
  if logChannel &&& st.kNetActiveLogChannels = 0 then st
  else writeLogLine (String.mk (formatted.data.take 1022)) clock st

/-- The function `SetLogChannels` (NetworkLogging.cpp:95-98). -/
def SetLogChannels (logChannels : Nat) (st : LogState) : LogState :=
  { st with kNetActiveLogChannels := logChannels }

/-- The function `GetLogChannels` (NetworkLogging.cpp:100-103). -/
def GetLogChannels (st : LogState) : Nat := st.kNetActiveLogChannels

/-- The number of log lines in a state, in the log file and on `std::cout` together. -/
def LogState.lines (st : LogState) : Nat := (st.kNetLogFile.getD []).length + st.cout.length

/-- One call of a logging function: the plain one (`false`) or the variadic one (`true`), with
its channel, its message text and the clock text of the moment. -/
structure LogCall where
  variadic : Bool
  logChannel : Nat
  msg : String
  clock : String

/-- The state after one logging call. -/
def LogCall.run (c : LogCall) (st : LogState) : LogState :=
  if c.variadic then TimeOutputDebugStringVariadic c.logChannel c.msg c.clock st
  else TimeOutputDebugString c.logChannel c.msg c.clock st

/-- The state after a sequence of logging calls. -/
def runLogCalls : List LogCall → LogState → LogState
  | [], st => st
  | c :: cs, st => runLogCalls cs (c.run st)

/-! ## The bit reader -/

theorem logicalPos_readBit (s : DataDeserializer W) :
    logicalPos (readBit s).2 = logicalPos s + 1 := by
  simp only [readBit, logicalPos]
  omega

theorem readBitsLoop_state (n : Nat) (s : DataDeserializer W) (h : 0 < n ∨ s.bitOfs < 8) :
    (readBitsLoop n s).2 = advance n s := by
  simp only [advance]
  induction n generalizing s with
  | zero =>
    have hb : s.bitOfs < 8 := by omega
    cases s with
    | mk d sz e b it =>
      simp only [readBitsLoop, logicalPos, Nat.add_zero] at hb ⊢
      congr 1 <;> omega
  | succ n ih =>
    have h1 := ih (readBit s).2 (Or.inr (by simp only [readBit]; omega))
    simp only [readBitsLoop]
    rw [h1, logicalPos_readBit]
    simp only [readBit]
    have : logicalPos s + 1 + n = logicalPos s + (n + 1) := by omega
    rw [this]

theorem readBitsLoop_lt (n : Nat) (s : DataDeserializer W) : (readBitsLoop n s).1 < 2 ^ n := by
  induction n generalizing s with
  | zero => simp [readBitsLoop]
  | succ n ih =>
    have h1 := ih (readBit s).2
    have h2 : (readBit s).1 < 2 := by
      simp only [readBit, streamBit]; omega
    simp only [readBitsLoop, pow_succ]
    omega

theorem readBitsLoop_bit (n : Nat) (s : DataDeserializer W) (i : Nat) (hi : i < n) :
    (readBitsLoop n s).1 / 2 ^ i % 2 = streamBit s.data (logicalPos s + i) := by
  induction n generalizing s i with
  | zero => omega
  | succ n ih =>
    have h2 : (readBit s).1 < 2 := by
      simp only [readBit, streamBit]; omega
    simp only [readBitsLoop]
    cases i with
    | zero =>
      simp only [pow_zero, Nat.div_one, Nat.add_zero]
      have : (readBit s).1 = streamBit s.data (logicalPos s) := rfl
      omega
    | succ j =>
      have h1 := ih (readBit s).2 j (by omega)
      rw [logicalPos_readBit] at h1
      have hd : (readBit s).2.data = s.data := rfl
      rw [hd] at h1
      have : logicalPos s + 1 + j = logicalPos s + (j + 1) := by omega
      rw [this] at h1
      rw [← h1]
      have h3 : ((readBit s).1 + 2 * (readBitsLoop n (readBit s).2).1) / 2 ^ (j + 1)
          = (readBitsLoop n (readBit s).2).1 / 2 ^ j := by
        rw [pow_succ, mul_comm (2 ^ j) 2, ← Nat.div_div_eq_div_mul]
        congr 1
        omega
      rw [h3]

theorem BitsLeft_advance (s : DataDeserializer W) (n : Nat) (hs : s.bitOfs < 8)
    (hn : n ≤ BitsLeft s) : BitsLeft (advance n s) = BitsLeft s - n := by
  simp only [BitsLeft, logicalPos, advance] at *
  split_ifs at hn ⊢ <;> omega

theorem logicalPos_advance (s : DataDeserializer W) (n : Nat) :
    logicalPos (advance n s) = logicalPos s + n := by
  simp only [advance, logicalPos]
  omega

theorem advance_advance (s : DataDeserializer W) (m n : Nat) :
    advance n (advance m s) = advance (m + n) s := by
  have h := logicalPos_advance s m
  simp only [advance] at h ⊢
  rw [h, Nat.add_assoc]

theorem advance_zero (s : DataDeserializer W) (hs : s.bitOfs < 8) : advance 0 s = s := by
  cases s with
  | mk d sz e b it =>
    simp only [advance, logicalPos, Nat.add_zero] at hs ⊢
    congr 1 <;> omega

theorem Moved_advance (s : DataDeserializer W) (n : Nat) (hs : s.bitOfs < 8)
    (hn : n ≤ BitsLeft s) : Moved n s (advance n s) := by
  refine ⟨rfl, rfl, ?_, logicalPos_advance s n, ?_⟩
  · simp only [advance]; omega
  · rw [BitsLeft_advance s n hs hn]; omega

theorem Moved_refl (s : DataDeserializer W) (hs : s.bitOfs < 8) : Moved 0 s s :=
  ⟨rfl, rfl, hs, rfl, rfl⟩

theorem Moved_trans {s t u : DataDeserializer W} {m n : Nat} (h1 : Moved m s t)
    (h2 : Moved n t u) : Moved (m + n) s u := by
  obtain ⟨a1, a2, _, a4, a5⟩ := h1
  obtain ⟨b1, b2, b3, b4, b5⟩ := h2
  refine ⟨b1.trans a1, b2.trans a2, b3, ?_, ?_⟩ <;> omega

theorem Moved_iter {s t : DataDeserializer W} {m : Nat} (h : Moved m s t) (it : Option W) :
    Moved m s { t with iter := it } := h

theorem ReadBitsToU32_eq (c : Nat) (s : DataDeserializer W) (h1 : 1 ≤ c) (h2 : c ≤ 32)
    (h3 : c ≤ BitsLeft s) :
    ReadBitsToU32 c s = some ((readBitsLoop c s).1, advance c s) := by
  simp only [ReadBitsToU32, h1, h2, h3, and_self, if_true]
  rw [← readBitsLoop_state c s (Or.inl (by omega))]

theorem ReadBitsToU32_some {c : Nat} {s t : DataDeserializer W} {v : Nat}
    (h : ReadBitsToU32 c s = some (v, t)) :
    (1 ≤ c ∧ c ≤ 32 ∧ c ≤ BitsLeft s) ∧ v = (readBitsLoop c s).1 ∧ t = advance c s := by
  by_cases hc : 1 ≤ c ∧ c ≤ 32 ∧ c ≤ BitsLeft s
  · rw [ReadBitsToU32_eq c s hc.1 hc.2.1 hc.2.2] at h
    simp only [Option.some.injEq, Prod.mk.injEq] at h
    exact ⟨hc, h.1.symm, h.2.symm⟩
  · simp [ReadBitsToU32, hc] at h

/-! ## Bit operations of `ReadVLE` -/

theorem and_one_shiftLeft_eq_zero (x n : Nat) : x &&& (1 <<< n) = 0 ↔ x.testBit n = false := by
  rw [Nat.one_shiftLeft]
  constructor
  · intro h
    have h1 : (x &&& 2 ^ n).testBit n = false := by rw [h]; simp
    simpa [Nat.testBit_two_pow_self] using h1
  · intro h
    apply Nat.eq_of_testBit_eq
    intro i
    by_cases hi : n = i
    · subst hi; simp [h]
    · simp [Nat.testBit_two_pow_of_ne hi]

theorem and_mask_eq_mod (x n : Nat) : x &&& ((1 <<< n) - 1) = x % 2 ^ n := by
  rw [Nat.one_shiftLeft, Nat.and_pow_two_sub_one_eq_mod]

theorem lt_of_testBit_false {x n : Nat} (hx : x < 2 ^ (n + 1)) (hb : x.testBit n = false) :
    x < 2 ^ n := by
  apply Nat.lt_pow_two_of_testBit
  intro i hi
  rcases Nat.eq_or_lt_of_le hi with h | h
  · rw [← h]; exact hb
  · exact Nat.testBit_lt_two_pow
      (Nat.lt_of_lt_of_le hx (Nat.pow_le_pow_right (by decide) h))

theorem shiftLeft_mod_u32 {x a n : Nat} (hx : x < 2 ^ a) (h : a + n ≤ 32) :
    (x <<< n) % 4294967296 = x <<< n := by
  apply Nat.mod_eq_of_lt
  rw [Nat.shiftLeft_eq]
  have h1 : x * 2 ^ n < 2 ^ a * 2 ^ n := Nat.mul_lt_mul_of_pos_right hx (Nat.two_pow_pos n)
  have h2 : 2 ^ a * 2 ^ n ≤ 2 ^ 32 := by
    rw [← pow_add]; exact Nat.pow_le_pow_right (by decide) h
  have h3 : (2 : Nat) ^ 32 = 4294967296 := by norm_num
  omega

/-! ## The exits of `ReadVLE` -/

theorem ReadVLEPath_exhausted1 (n1 n2 n3 : Nat) (s : DataDeserializer W)
    (h : BitsLeft s < n1 + 1) :
    ReadVLEPath n1 n2 n3 s = some (VLEPath.exhausted1, VLEReadError, s) := by
  simp [ReadVLEPath, h]

theorem ReadVLEPath_tier1 (n1 n2 n3 : Nat) (s s1 : DataDeserializer W) (r1 : Nat)
    (h : n1 + 1 ≤ BitsLeft s) (hr : ReadBits (n1 + 1) s = some (r1, s1))
    (hb : r1.testBit n1 = false) :
    ReadVLEPath n1 n2 n3 s = some (VLEPath.tier1, r1 % 2 ^ n1, s1) := by
  have hlt : r1 < 2 ^ n1 := by
    have := (ReadBitsToU32_some hr).2.1
    exact lt_of_testBit_false (this ▸ readBitsLoop_lt (n1 + 1) s) hb
  have h0 : ¬ BitsLeft s < n1 + 1 := by omega
  simp only [ReadVLEPath, h0, if_false, hr, (and_one_shiftLeft_eq_zero r1 n1).2 hb, if_true,
    Nat.mod_eq_of_lt hlt]

theorem ReadVLEPath_exhausted2 (n1 n2 n3 : Nat) (s s1 : DataDeserializer W) (r1 : Nat)
    (h : n1 + 1 ≤ BitsLeft s) (hr : ReadBits (n1 + 1) s = some (r1, s1))
    (hb : r1.testBit n1 = true) (h2 : BitsLeft s1 < n2 + (if n3 = 0 then 0 else 1)) :
    ReadVLEPath n1 n2 n3 s = some (VLEPath.exhausted2, VLEReadError, s1) := by
  have h0 : ¬ BitsLeft s < n1 + 1 := by omega
  have hc : ¬ r1 &&& (1 <<< n1) = 0 := by
    rw [and_one_shiftLeft_eq_zero]; simp [hb]
  simp only [ReadVLEPath, h0, if_false, hr, hc, h2, if_true]

theorem ReadVLEPath_tier2 (n1 n2 n3 : Nat) (s s1 s2 : DataDeserializer W) (r1 r2 : Nat)
    (h : n1 + 1 ≤ BitsLeft s) (hr : ReadBits (n1 + 1) s = some (r1, s1))
    (hb : r1.testBit n1 = true) (h2 : n2 + (if n3 = 0 then 0 else 1) ≤ BitsLeft s1)
    (hr2 : ReadBits (n2 + (if n3 = 0 then 0 else 1)) s1 = some (r2, s2)) (hn2 : n2 < 32)
    (hb2 : r2.testBit n2 = false) :
    ReadVLEPath n1 n2 n3 s
      = some (VLEPath.tier2, r1 % 2 ^ n1 ||| ((r2 <<< n1) % 4294967296), s2) := by
  have h0 : ¬ BitsLeft s < n1 + 1 := by omega
  have hc : ¬ r1 &&& (1 <<< n1) = 0 := by
    rw [and_one_shiftLeft_eq_zero]; simp [hb]
  have h2' : ¬ BitsLeft s1 < n2 + (if n3 = 0 then 0 else 1) := by omega
  have hn2' : ¬ 32 ≤ n2 := by omega
  simp only [ReadVLEPath, h0, if_false, hr, hc, h2', hr2, hn2',
    (and_one_shiftLeft_eq_zero r2 n2).2 hb2, if_true, and_mask_eq_mod]

theorem ReadVLEPath_exhausted3 (n1 n2 n3 : Nat) (s s1 s2 : DataDeserializer W) (r1 r2 : Nat)
    (h : n1 + 1 ≤ BitsLeft s) (hr : ReadBits (n1 + 1) s = some (r1, s1))
    (hb : r1.testBit n1 = true) (h2 : n2 + (if n3 = 0 then 0 else 1) ≤ BitsLeft s1)
    (hr2 : ReadBits (n2 + (if n3 = 0 then 0 else 1)) s1 = some (r2, s2)) (hn2 : n2 < 32)
    (hb2 : r2.testBit n2 = true) (h3 : BitsLeft s2 < n3) :
    ReadVLEPath n1 n2 n3 s = some (VLEPath.exhausted3, VLEReadError, s2) := by
  have h0 : ¬ BitsLeft s < n1 + 1 := by omega
  have hc : ¬ r1 &&& (1 <<< n1) = 0 := by
    rw [and_one_shiftLeft_eq_zero]; simp [hb]
  have h2' : ¬ BitsLeft s1 < n2 + (if n3 = 0 then 0 else 1) := by omega
  have hn2' : ¬ 32 ≤ n2 := by omega
  have hc2 : ¬ r2 &&& (1 <<< n2) = 0 := by
    rw [and_one_shiftLeft_eq_zero]; simp [hb2]
  simp only [ReadVLEPath, h0, if_false, hr, hc, h2', hr2, hn2', hc2, h3, if_true]

theorem ReadVLEPath_tier3 (n1 n2 n3 : Nat) (s s1 s2 s3 : DataDeserializer W) (r1 r2 r3 : Nat)
    (h : n1 + 1 ≤ BitsLeft s) (hr : ReadBits (n1 + 1) s = some (r1, s1))
    (hb : r1.testBit n1 = true) (h2 : n2 + (if n3 = 0 then 0 else 1) ≤ BitsLeft s1)
    (hr2 : ReadBits (n2 + (if n3 = 0 then 0 else 1)) s1 = some (r2, s2))
    (hb2 : r2.testBit n2 = true) (h3 : n3 ≤ BitsLeft s2)
    (hr3 : ReadBits n3 s2 = some (r3, s3)) (hn12 : n1 + n2 < 32) :
    ReadVLEPath n1 n2 n3 s
      = some (VLEPath.tier3, r1 % 2 ^ n1 ||| (((r2 % 2 ^ n2) <<< n1) % 4294967296)
          ||| ((r3 <<< (n1 + n2)) % 4294967296), s3) := by
  have h0 : ¬ BitsLeft s < n1 + 1 := by omega
  have hc : ¬ r1 &&& (1 <<< n1) = 0 := by
    rw [and_one_shiftLeft_eq_zero]; simp [hb]
  have h2' : ¬ BitsLeft s1 < n2 + (if n3 = 0 then 0 else 1) := by omega
  have hn2' : ¬ 32 ≤ n2 := by omega
  have hc2 : ¬ r2 &&& (1 <<< n2) = 0 := by
    rw [and_one_shiftLeft_eq_zero]; simp [hb2]
  have h3' : ¬ BitsLeft s2 < n3 := by omega
  have hn12' : ¬ 32 ≤ n1 + n2 := by omega
  simp only [ReadVLEPath, h0, if_false, hr, hc, h2', hr2, hn2', hc2, h3', hr3, hn12',
    and_mask_eq_mod]

theorem ReadBits_width_lt {c : Nat} {s t : DataDeserializer W} {v : Nat}
    (h : ReadBits c s = some (v, t)) : v < 2 ^ c := by
  have := (ReadBitsToU32_some h).2.1
  exact this ▸ readBitsLoop_lt c s

theorem ReadVLEPath_inv {n1 n2 n3 : Nat} {s t : DataDeserializer W} {p : VLEPath} {v : Nat}
    (h : ReadVLEPath n1 n2 n3 s = some (p, v, t)) :
    (p = VLEPath.exhausted1 → v = VLEReadError ∧ t = s ∧ BitsLeft s < n1 + 1) ∧
    (p = VLEPath.tier1 → n1 + 1 ≤ BitsLeft s ∧ t = advance (n1 + 1) s) ∧
    (p = VLEPath.exhausted2 → v = VLEReadError ∧ n1 + 1 ≤ BitsLeft s ∧
      t = advance (n1 + 1) s ∧ BitsLeft t < n2 + (if n3 = 0 then 0 else 1)) ∧
    (p = VLEPath.tier2 → n1 + 1 ≤ BitsLeft s ∧
      n2 + (if n3 = 0 then 0 else 1) ≤ BitsLeft (advance (n1 + 1) s) ∧
      t = advance (n2 + (if n3 = 0 then 0 else 1)) (advance (n1 + 1) s)) ∧
    (p = VLEPath.exhausted3 → v = VLEReadError ∧ n3 ≠ 0 ∧ n1 + 1 ≤ BitsLeft s ∧
      n2 + 1 ≤ BitsLeft (advance (n1 + 1) s) ∧
      t = advance (n2 + 1) (advance (n1 + 1) s) ∧ BitsLeft t < n3) ∧
    (p = VLEPath.tier3 → n3 ≠ 0 ∧ n1 + 1 ≤ BitsLeft s ∧
      n2 + 1 ≤ BitsLeft (advance (n1 + 1) s) ∧
      n3 ≤ BitsLeft (advance (n2 + 1) (advance (n1 + 1) s)) ∧
      t = advance n3 (advance (n2 + 1) (advance (n1 + 1) s))) := by
  by_cases h0 : BitsLeft s < n1 + 1
  · rw [ReadVLEPath_exhausted1 n1 n2 n3 s h0] at h
    simp only [Option.some.injEq, Prod.mk.injEq] at h
    obtain ⟨rfl, rfl, rfl⟩ := h
    exact ⟨fun _ => ⟨rfl, rfl, h0⟩, (fun hp => by cases hp), (fun hp => by cases hp),
      (fun hp => by cases hp), (fun hp => by cases hp), (fun hp => by cases hp)⟩
  have h0' : n1 + 1 ≤ BitsLeft s := by omega
  cases hr : ReadBits (n1 + 1) s with
  | none => simp [ReadVLEPath, h0, hr] at h
  | some q1 =>
    obtain ⟨r1, s1⟩ := q1
    have hs1 : s1 = advance (n1 + 1) s := (ReadBitsToU32_some hr).2.2
    by_cases hb : r1.testBit n1 = false
    · rw [ReadVLEPath_tier1 n1 n2 n3 s s1 r1 h0' hr hb] at h
      simp only [Option.some.injEq, Prod.mk.injEq] at h
      obtain ⟨rfl, rfl, rfl⟩ := h
      exact ⟨(fun hp => by cases hp), fun _ => ⟨h0', hs1⟩, (fun hp => by cases hp),
        (fun hp => by cases hp), (fun hp => by cases hp), (fun hp => by cases hp)⟩
    have hb' : r1.testBit n1 = true := by simpa using hb
    by_cases h2 : BitsLeft s1 < n2 + (if n3 = 0 then 0 else 1)
    · rw [ReadVLEPath_exhausted2 n1 n2 n3 s s1 r1 h0' hr hb' h2] at h
      simp only [Option.some.injEq, Prod.mk.injEq] at h
      obtain ⟨rfl, rfl, rfl⟩ := h
      exact ⟨(fun hp => by cases hp), (fun hp => by cases hp), fun _ => ⟨rfl, h0', hs1, h2⟩,
        (fun hp => by cases hp), (fun hp => by cases hp), (fun hp => by cases hp)⟩
    have h2' : n2 + (if n3 = 0 then 0 else 1) ≤ BitsLeft s1 := by omega
    have hc : ¬ r1 &&& (1 <<< n1) = 0 := by
      rw [and_one_shiftLeft_eq_zero]; simp [hb']
    cases hr2 : ReadBits (n2 + (if n3 = 0 then 0 else 1)) s1 with
    | none => simp [ReadVLEPath, h0, hr, hc, h2, hr2] at h
    | some q2 =>
      obtain ⟨r2, s2⟩ := q2
      have hs2 : s2 = advance (n2 + (if n3 = 0 then 0 else 1)) s1 :=
        (ReadBitsToU32_some hr2).2.2
      by_cases hn2 : 32 ≤ n2
      · simp [ReadVLEPath, h0, hr, hc, h2, hr2, hn2] at h
      have hn2' : n2 < 32 := by omega
      by_cases hb2 : r2.testBit n2 = false
      · rw [ReadVLEPath_tier2 n1 n2 n3 s s1 s2 r1 r2 h0' hr hb' h2' hr2 hn2' hb2] at h
        simp only [Option.some.injEq, Prod.mk.injEq] at h
        obtain ⟨rfl, rfl, rfl⟩ := h
        exact ⟨(fun hp => by cases hp), (fun hp => by cases hp), (fun hp => by cases hp),
          fun _ => ⟨h0', hs1 ▸ h2', hs1 ▸ hs2⟩, (fun hp => by cases hp), (fun hp => by cases hp)⟩
      have hb2' : r2.testBit n2 = true := by simpa using hb2
      have hn3 : n3 ≠ 0 := by
        intro h3
        have hlt := ReadBits_width_lt hr2
        rw [if_pos h3, Nat.add_zero] at hlt
        rw [Nat.testBit_lt_two_pow hlt] at hb2'
        cases hb2'
      have hmed : n2 + (if n3 = 0 then 0 else 1) = n2 + 1 := by rw [if_neg hn3]
      rw [hmed] at hs2
      by_cases h3 : BitsLeft s2 < n3
      · rw [ReadVLEPath_exhausted3 n1 n2 n3 s s1 s2 r1 r2 h0' hr hb' h2' hr2 hn2' hb2' h3] at h
        simp only [Option.some.injEq, Prod.mk.injEq] at h
        obtain ⟨rfl, rfl, rfl⟩ := h
        exact ⟨(fun hp => by cases hp), (fun hp => by cases hp), (fun hp => by cases hp),
          (fun hp => by cases hp),
          fun _ => ⟨rfl, hn3, h0', hs1 ▸ hmed ▸ h2', hs1 ▸ hs2, h3⟩, (fun hp => by cases hp)⟩
      have h3' : n3 ≤ BitsLeft s2 := by omega
      have hc2 : ¬ r2 &&& (1 <<< n2) = 0 := by
        rw [and_one_shiftLeft_eq_zero]; simp [hb2']
      cases hr3 : ReadBits n3 s2 with
      | none => simp [ReadVLEPath, h0, hr, hc, h2, hr2, hn2, hc2, h3, hr3] at h
      | some q3 =>
        obtain ⟨r3, s3⟩ := q3
        have hs3 : s3 = advance n3 s2 := (ReadBitsToU32_some hr3).2.2
        by_cases hn12 : 32 ≤ n1 + n2
        · simp [ReadVLEPath, h0, hr, hc, h2, hr2, hn2, hc2, h3, hr3, hn12] at h
        rw [ReadVLEPath_tier3 n1 n2 n3 s s1 s2 s3 r1 r2 r3 h0' hr hb' h2' hr2 hb2' h3' hr3
          (by omega)] at h
        simp only [Option.some.injEq, Prod.mk.injEq] at h
        obtain ⟨rfl, rfl, rfl⟩ := h
        exact ⟨(fun hp => by cases hp), (fun hp => by cases hp), (fun hp => by cases hp),
          (fun hp => by cases hp), (fun hp => by cases hp),
          fun _ => ⟨hn3, h0', hs1 ▸ hmed ▸ h2', hs1 ▸ hs2 ▸ h3', hs1 ▸ hs2 ▸ hs3⟩⟩

theorem ReadVLE_of_path {n1 n2 n3 : Nat} {s t : DataDeserializer W} {p : VLEPath} {v : Nat}
    (h : ReadVLEPath n1 n2 n3 s = some (p, v, t)) : ReadVLE n1 n2 n3 s = some (v, t) := by
  simp [ReadVLE, h]

/-! ## C1 - C5: `ReadVLE` -/

/-- C1: for every width triple and every state with `BitsLeft() < numBits1 + 1`, `ReadVLE`
returns `0xFFFFFFFF`, which is the value of `VLEReadError`, and the state after the call is
the state before it, so the byte offset and the bit offset are unchanged. -/
theorem ReadVLE_exhausted_tier1 (n1 n2 n3 : Nat) (s : DataDeserializer W)
    (h : BitsLeft s < n1 + 1) :
    ∃ t, ReadVLE n1 n2 n3 s = some (4294967295, t) ∧ VLEReadError = 4294967295 ∧
      t.elemOfs = s.elemOfs ∧ t.bitOfs = s.bitOfs ∧ t = s :=
  ⟨s, ReadVLE_of_path (ReadVLEPath_exhausted1 n1 n2 n3 s h), rfl, rfl, rfl, rfl⟩

/-- Witness of C1: the widths (15,16,0) on a buffer of one byte. -/
theorem ReadVLE_exhausted_tier1_witness :
    BitsLeft (DataDeserializer.init [178] (none : Option Unit)) < 15 + 1 ∧
    ∃ t, ReadVLE 15 16 0 (DataDeserializer.init [178] (none : Option Unit))
        = some (4294967295, t) ∧ VLEReadError = 4294967295 ∧
      t.elemOfs = (DataDeserializer.init [178] (none : Option Unit)).elemOfs ∧
      t.bitOfs = (DataDeserializer.init [178] (none : Option Unit)).bitOfs ∧
      t = DataDeserializer.init [178] (none : Option Unit) :=
  ⟨by decide, ReadVLE_exhausted_tier1 15 16 0 _ (by decide)⟩

/-- C2: for widths with `numBits1 >= 1`, `numBits2 >= 1` and
`numBits1 + numBits2 + numBits3 <= 32` and a state with enough bits for each tier that is
read, `ReadVLE` returns (a) the low `numBits1` bits of the first read `r1` of `numBits1 + 1`
bits when bit `numBits1` of `r1` is 0; otherwise, with `sml = r1 mod 2^numBits1`,
(b) `sml | (r2 << numBits1)` when bit `numBits2` of the second read `r2` is 0 or
`numBits3 == 0`; otherwise (c) `sml | (tier2Value << numBits1) |
(r3 << (numBits1 + numBits2))` with `tier2Value = r2 mod 2^numBits2` and `r3` the third read
of `numBits3` bits. The state returned is the state after the last read. -/
theorem ReadVLE_value (n1 n2 n3 : Nat) (s : DataDeserializer W) (h1 : 1 ≤ n1) (h2 : 1 ≤ n2)
    (h32 : n1 + n2 + n3 ≤ 32) (hbits : n1 + 1 ≤ BitsLeft s) :
    ∃ r1 s1, ReadBits (n1 + 1) s = some (r1, s1) ∧
      (r1.testBit n1 = false → ReadVLE n1 n2 n3 s = some (r1 % 2 ^ n1, s1)) ∧
      (r1.testBit n1 = true → n2 + (if n3 = 0 then 0 else 1) ≤ BitsLeft s1 →
        ∃ r2 s2, ReadBits (n2 + (if n3 = 0 then 0 else 1)) s1 = some (r2, s2) ∧
          ((n3 = 0 ∨ r2.testBit n2 = false) →
            ReadVLE n1 n2 n3 s = some (r1 % 2 ^ n1 ||| (r2 <<< n1), s2)) ∧
          ((n3 ≠ 0 ∧ r2.testBit n2 = true) → n3 ≤ BitsLeft s2 →
            ∃ r3 s3, ReadBits n3 s2 = some (r3, s3) ∧
              ReadVLE n1 n2 n3 s
                = some (r1 % 2 ^ n1 ||| ((r2 % 2 ^ n2) <<< n1) ||| (r3 <<< (n1 + n2)), s3))) := by
  have hr : ReadBits (n1 + 1) s = some ((readBitsLoop (n1 + 1) s).1, advance (n1 + 1) s) :=
    ReadBitsToU32_eq (n1 + 1) s (by omega) (by omega) hbits
  refine ⟨_, _, hr, fun hb => ReadVLE_of_path (ReadVLEPath_tier1 n1 n2 n3 s _ _ hbits hr hb),
    fun hb hmed => ?_⟩
  have hr2 := ReadBitsToU32_eq (n2 + (if n3 = 0 then 0 else 1)) (advance (n1 + 1) s)
    (by omega) (by split_ifs <;> omega) hmed
  refine ⟨_, _, hr2, fun hc => ?_, fun hc h3 => ?_⟩
  · have hlt : (readBitsLoop (n2 + (if n3 = 0 then 0 else 1)) (advance (n1 + 1) s)).1 < 2 ^ n2 := by
      have hw := ReadBits_width_lt hr2
      rcases hc with hc | hc
      · rw [if_pos hc, Nat.add_zero] at hw ⊢
        exact hw
      · by_cases hn3 : n3 = 0
        · rw [if_pos hn3, Nat.add_zero] at hw ⊢
          exact hw
        · rw [if_neg hn3] at hw hc ⊢
          exact lt_of_testBit_false hw hc
    have hb2 := Nat.testBit_lt_two_pow hlt
    have hp := ReadVLEPath_tier2 n1 n2 n3 s _ _ _ _ hbits hr hb hmed hr2 (by omega) hb2
    rw [shiftLeft_mod_u32 hlt (by omega)] at hp
    exact ReadVLE_of_path hp
  · have hn3 : 1 ≤ n3 := Nat.pos_of_ne_zero hc.1
    have hr3 := ReadBitsToU32_eq n3
      (advance (n2 + (if n3 = 0 then 0 else 1)) (advance (n1 + 1) s)) hn3 (by omega) h3
    have hp := ReadVLEPath_tier3 n1 n2 n3 s _ _ _ _ _ _ hbits hr hb hmed hr2 hc.2 h3 hr3
      (by omega)
    rw [shiftLeft_mod_u32 (Nat.mod_lt _ (Nat.two_pow_pos n2)) (by omega),
      shiftLeft_mod_u32 (ReadBits_width_lt hr3) (by omega)] at hp
    exact ⟨_, _, hr3, ReadVLE_of_path hp⟩

/-- Witness of C2: the widths (4,4,8) on a buffer of three bytes `0xFF`. -/
theorem ReadVLE_value_witness :
    (1 ≤ 4 ∧ 1 ≤ 4 ∧ 4 + 4 + 8 ≤ 32 ∧
      4 + 1 ≤ BitsLeft (DataDeserializer.init [255, 255, 255] (none : Option Unit))) ∧
    ∃ r1 s1, ReadBits (4 + 1) (DataDeserializer.init [255, 255, 255] (none : Option Unit))
        = some (r1, s1) ∧
      (r1.testBit 4 = false →
        ReadVLE 4 4 8 (DataDeserializer.init [255, 255, 255] (none : Option Unit))
          = some (r1 % 2 ^ 4, s1)) ∧
      (r1.testBit 4 = true → 4 + (if 8 = 0 then 0 else 1) ≤ BitsLeft s1 →
        ∃ r2 s2, ReadBits (4 + (if 8 = 0 then 0 else 1)) s1 = some (r2, s2) ∧
          ((8 = 0 ∨ r2.testBit 4 = false) →
            ReadVLE 4 4 8 (DataDeserializer.init [255, 255, 255] (none : Option Unit))
              = some (r1 % 2 ^ 4 ||| (r2 <<< 4), s2)) ∧
          ((8 ≠ 0 ∧ r2.testBit 4 = true) → 8 ≤ BitsLeft s2 →
            ∃ r3 s3, ReadBits 8 s2 = some (r3, s3) ∧
              ReadVLE 4 4 8 (DataDeserializer.init [255, 255, 255] (none : Option Unit))
                = some (r1 % 2 ^ 4 ||| ((r2 % 2 ^ 4) <<< 4) ||| (r3 <<< (4 + 4)), s3))) :=
  ⟨⟨by decide, by decide, by decide, by decide⟩,
    ReadVLE_value 4 4 8 _ (by decide) (by decide) (by decide) (by decide)⟩

/-- C3 as stated fails: with the widths (4,4,8) on the one-byte buffer `[0x10]` the call reads
the five bits of tier 1, finds the continuation bit set and three bits left, and returns the
sentinel by the tier-2 exit with the bit offset at 5, not at 0. -/
theorem ReadVLE_exhausted_unmoved_counterexample :
    ¬ (∀ (n1 n2 n3 : Nat) (s t : DataDeserializer Unit) (p : VLEPath) (v : Nat),
        ReadVLEPath n1 n2 n3 s = some (p, v, t) →
        (p = VLEPath.exhausted1 ∨ p = VLEPath.exhausted2 ∨ p = VLEPath.exhausted3) →
        v = 4294967295 ∧ t.elemOfs = s.elemOfs ∧ t.bitOfs = s.bitOfs) := by
  intro h
  have h1 := h 4 4 8 (DataDeserializer.init [16] none)
    { data := [16], size := 1, elemOfs := 0, bitOfs := 5, iter := none }
    VLEPath.exhausted2 4294967295 (by decide) (by decide)
  exact absurd h1.2.2 (by decide)

/-- C3 (amended): whenever `ReadVLE` leaves by one of its three exhaustion exits it returns the
all-ones sentinel; by the tier-1 exit the state is unchanged, by the tier-2 exit the cursor
stands `numBits1 + 1` bits further on, and by the tier-3 exit it stands
`(numBits1 + 1) + (numBits2 + 1)` bits further on. -/
theorem ReadVLE_exhausted_cursor (n1 n2 n3 : Nat) (s t : DataDeserializer W) (p : VLEPath)
    (v : Nat) (h : ReadVLEPath n1 n2 n3 s = some (p, v, t))
    (hp : p = VLEPath.exhausted1 ∨ p = VLEPath.exhausted2 ∨ p = VLEPath.exhausted3) :
    ReadVLE n1 n2 n3 s = some (4294967295, t) ∧
    (p = VLEPath.exhausted1 → t = s) ∧
    (p = VLEPath.exhausted2 →
      t = advance (n1 + 1) s ∧ logicalPos t = logicalPos s + (n1 + 1)) ∧
    (p = VLEPath.exhausted3 →
      t = advance (n2 + 1) (advance (n1 + 1) s) ∧
      logicalPos t = logicalPos s + (n1 + 1) + (n2 + 1)) := by
  obtain ⟨i1, _, i3, _, i5, _⟩ := ReadVLEPath_inv h
  have hv : v = 4294967295 := by
    rcases hp with hp | hp | hp
    · exact (i1 hp).1
    · exact (i3 hp).1
    · exact (i5 hp).1
  refine ⟨hv ▸ ReadVLE_of_path h, fun q => (i1 q).2.1, fun q => ?_, fun q => ?_⟩
  · have ht := (i3 q).2.2.1
    exact ⟨ht, by rw [ht, logicalPos_advance]⟩
  · have ht := (i5 q).2.2.2.2.1
    exact ⟨ht, by rw [ht, logicalPos_advance, logicalPos_advance]⟩

/-- Witness of C3 (amended): the tier-2 exit of the widths (4,4,8) on the buffer `[0x10]`. -/
theorem ReadVLE_exhausted_cursor_witness :
    ReadVLE 4 4 8 (DataDeserializer.init [16] (none : Option Unit))
      = some (4294967295, { data := [16], size := 1, elemOfs := 0, bitOfs := 5, iter := none }) :=
  (ReadVLE_exhausted_cursor 4 4 8 (DataDeserializer.init [16] (none : Option Unit))
    { data := [16], size := 1, elemOfs := 0, bitOfs := 5, iter := none }
    VLEPath.exhausted2 4294967295 (by decide) (by decide)).1

/-- C4: in a state with `bitOfs` in `[0,7]` in which `ReadVLE` returns a decoded value,
`BitsLeft()` goes down by exactly `numBits1 + 1` when the call ends at tier 1, by
`numBits1 + 1 + numBits2` (`+ 1` if `numBits3 > 0`) when it ends at tier 2, and by
`numBits1 + 1 + numBits2 + 1 + numBits3` when it reads all three tiers. For the widths (4,4,8)
the encodings of 0 and 15 are decoded with 5 bits consumed and that of 16 with 10 bits
consumed. -/
theorem ReadVLE_bits_consumed (n1 n2 n3 : Nat) (s t : DataDeserializer W) (p : VLEPath)
    (v : Nat) (hb : s.bitOfs < 8) (h : ReadVLEPath n1 n2 n3 s = some (p, v, t)) :
    (p = VLEPath.tier1 → BitsLeft t + (n1 + 1) = BitsLeft s) ∧
    (p = VLEPath.tier2 →
      BitsLeft t + (n1 + 1 + n2 + (if n3 > 0 then 1 else 0)) = BitsLeft s) ∧
    (p = VLEPath.tier3 → BitsLeft t + (n1 + 1 + n2 + 1 + n3) = BitsLeft s) ∧
    (ReadVLEPath 4 4 8 (DataDeserializer.init [0] (none : Option Unit))).map
        (fun r => (r.1, r.2.1, BitsLeft (DataDeserializer.init [0] (none : Option Unit))
          - BitsLeft r.2.2)) = some (VLEPath.tier1, 0, 5) ∧
    (ReadVLEPath 4 4 8 (DataDeserializer.init [15] (none : Option Unit))).map
        (fun r => (r.1, r.2.1, BitsLeft (DataDeserializer.init [15] (none : Option Unit))
          - BitsLeft r.2.2)) = some (VLEPath.tier1, 15, 5) ∧
    (ReadVLEPath 4 4 8 (DataDeserializer.init [48, 0] (none : Option Unit))).map
        (fun r => (r.1, r.2.1, BitsLeft (DataDeserializer.init [48, 0] (none : Option Unit))
          - BitsLeft r.2.2)) = some (VLEPath.tier2, 16, 10) := by
  obtain ⟨_, i2, _, i4, _, i6⟩ := ReadVLEPath_inv h
  refine ⟨fun q => ?_, fun q => ?_, fun q => ?_, by decide, by decide, by decide⟩
  · obtain ⟨a, ht⟩ := i2 q
    rw [ht, BitsLeft_advance s _ hb a]; omega
  · obtain ⟨a, b, ht⟩ := i4 q
    have e1 := BitsLeft_advance s _ hb a
    have e2 := BitsLeft_advance (advance (n1 + 1) s) _ (by simp only [advance]; omega) b
    rw [ht, e2, e1]
    rw [e1] at b
    split_ifs at b ⊢ <;> omega
  · obtain ⟨_, a, b, c, ht⟩ := i6 q
    have e1 := BitsLeft_advance s _ hb a
    have e2 := BitsLeft_advance (advance (n1 + 1) s) _ (by simp only [advance]; omega) b
    have e3 := BitsLeft_advance (advance (n2 + 1) (advance (n1 + 1) s)) _
      (by simp only [advance]; omega) c
    rw [ht, e3, e2, e1]
    rw [e2, e1] at c
    rw [e1] at b
    omega

/-- Witness of C4: the widths (4,4,8) on three bytes `0xFF` read all three tiers, 18 bits. -/
theorem ReadVLE_bits_consumed_witness :
    ReadVLEPath 4 4 8 (DataDeserializer.init [255, 255, 255] (none : Option Unit))
      = some (VLEPath.tier3, 65535,
          { data := [255, 255, 255], size := 3, elemOfs := 2, bitOfs := 2, iter := none }) ∧
    BitsLeft ({ data := [255, 255, 255], size := 3, elemOfs := 2, bitOfs := 2, iter := none } :
        DataDeserializer Unit) + (4 + 1 + 4 + 1 + 8)
      = BitsLeft (DataDeserializer.init [255, 255, 255] (none : Option Unit)) :=
  ⟨by decide,
    (ReadVLE_bits_consumed 4 4 8 (DataDeserializer.init [255, 255, 255] (none : Option Unit))
      { data := [255, 255, 255], size := 3, elemOfs := 2, bitOfs := 2, iter := none }
      VLEPath.tier3 65535 (by decide) (by decide)).2.2.1 rfl⟩

/-- C5: for widths with `numBits3 == 0` and `numBits2 < 32`, tier 2 is terminal. The tier-2
read asks for exactly `numBits2` bits, bit `numBits2` of its result is always 0, so the call
never takes the tier-3 branch (neither its exhaustion exit nor its value return), and it never
moves the cursor, nor lowers `BitsLeft()`, by more than `numBits1 + 1 + numBits2` bits. With
`numBits1 <= 31` and `numBits2 >= 1` the call returns in every state. -/
theorem ReadVLE_two_tier (n1 n2 : Nat) (s : DataDeserializer W) (hn2 : n2 < 32) :
    (∀ (s1 s2 : DataDeserializer W) (med : Nat),
      ReadBits (n2 + (if (0 : Nat) = 0 then 0 else 1)) s1 = some (med, s2) →
        med &&& (1 <<< n2) = 0 ∧ s2 = advance n2 s1) ∧
    (∀ (p : VLEPath) (v : Nat) (t : DataDeserializer W),
      ReadVLEPath n1 n2 0 s = some (p, v, t) →
        p ≠ VLEPath.tier3 ∧ p ≠ VLEPath.exhausted3 ∧
        (p = VLEPath.tier2 → t = advance n2 (advance (n1 + 1) s)) ∧
        logicalPos t ≤ logicalPos s + (n1 + 1 + n2) ∧
        (s.bitOfs < 8 → BitsLeft s - BitsLeft t ≤ n1 + 1 + n2)) ∧
    (n1 ≤ 31 → 1 ≤ n2 → ∃ p v t, ReadVLEPath n1 n2 0 s = some (p, v, t)) := by
  refine ⟨fun s1 s2 med hr => ?_, fun p v t h => ?_, fun h1 h2 => ?_⟩
  · simp only [if_true, Nat.add_zero] at hr
    exact ⟨(and_one_shiftLeft_eq_zero med n2).2 (Nat.testBit_lt_two_pow (ReadBits_width_lt hr)),
      (ReadBitsToU32_some hr).2.2⟩
  · obtain ⟨i1, i2, i3, i4, i5, i6⟩ := ReadVLEPath_inv h
    simp only [if_true, Nat.add_zero] at i3 i4
    refine ⟨fun q => (i6 q).1 rfl, fun q => (i5 q).2.1 rfl, fun q => (i4 q).2.2, ?_, fun hb => ?_⟩
    · cases p with
      | exhausted1 => rw [(i1 rfl).2.1]; omega
      | tier1 => rw [(i2 rfl).2, logicalPos_advance]; omega
      | exhausted2 => rw [(i3 rfl).2.2.1, logicalPos_advance]; omega
      | tier2 => rw [(i4 rfl).2.2, logicalPos_advance, logicalPos_advance]; omega
      | exhausted3 => exact absurd rfl (i5 rfl).2.1
      | tier3 => exact absurd rfl (i6 rfl).1
    · cases p with
      | exhausted1 => rw [(i1 rfl).2.1]; omega
      | tier1 => rw [(i2 rfl).2, BitsLeft_advance s _ hb (i2 rfl).1]; omega
      | exhausted2 => rw [(i3 rfl).2.2.1, BitsLeft_advance s _ hb (i3 rfl).2.1]; omega
      | tier2 =>
        obtain ⟨a, b, ht⟩ := i4 rfl
        rw [ht, BitsLeft_advance (advance (n1 + 1) s) _ (by simp only [advance]; omega) b,
          BitsLeft_advance s _ hb a]
        omega
      | exhausted3 => exact absurd rfl (i5 rfl).2.1
      | tier3 => exact absurd rfl (i6 rfl).1
  · by_cases h0 : BitsLeft s < n1 + 1
    · exact ⟨_, _, _, ReadVLEPath_exhausted1 n1 n2 0 s h0⟩
    have h0' : n1 + 1 ≤ BitsLeft s := by omega
    have hr := ReadBitsToU32_eq (n1 + 1) s (by omega) (by omega) h0'
    by_cases hb : (readBitsLoop (n1 + 1) s).1.testBit n1 = false
    · exact ⟨_, _, _, ReadVLEPath_tier1 n1 n2 0 s _ _ h0' hr hb⟩
    have hb' : (readBitsLoop (n1 + 1) s).1.testBit n1 = true := by simpa using hb
    by_cases hm : BitsLeft (advance (n1 + 1) s) < n2 + (if (0 : Nat) = 0 then 0 else 1)
    · exact ⟨_, _, _, ReadVLEPath_exhausted2 n1 n2 0 s _ _ h0' hr hb' hm⟩
    have hm' : n2 + (if (0 : Nat) = 0 then 0 else 1) ≤ BitsLeft (advance (n1 + 1) s) := by
      omega
    have hr2 := ReadBitsToU32_eq (n2 + (if (0 : Nat) = 0 then 0 else 1)) (advance (n1 + 1) s)
      (by simp only [if_true]; omega) (by simp only [if_true]; omega) hm'
    have hlt := ReadBits_width_lt hr2
    simp only [if_true, Nat.add_zero] at hlt
    exact ⟨_, _, _, ReadVLEPath_tier2 n1 n2 0 s _ _ _ _ h0' hr hb' hm' hr2 hn2
      (Nat.testBit_lt_two_pow hlt)⟩

/-- Witness of C5: the widths (7,8,0) on the buffer `[0xFF, 0xFF]` end at tier 2 after
16 bits. -/
theorem ReadVLE_two_tier_witness :
    8 < 32 ∧
    ReadVLEPath 7 8 0 (DataDeserializer.init [255, 255] (none : Option Unit))
      = some (VLEPath.tier2, 32767,
          { data := [255, 255], size := 2, elemOfs := 2, bitOfs := 0, iter := none }) ∧
    BitsLeft (DataDeserializer.init [255, 255] (none : Option Unit))
      - BitsLeft ({ data := [255, 255], size := 2, elemOfs := 2, bitOfs := 0, iter := none } :
          DataDeserializer Unit) ≤ 7 + 1 + 8 :=
  ⟨by decide, by decide,
    ((ReadVLE_two_tier 7 8 (DataDeserializer.init [255, 255] (none : Option Unit))
      (by decide)).2.1 VLEPath.tier2 32767
      { data := [255, 255], size := 2, elemOfs := 2, bitOfs := 0, iter := none }
      (by decide)).2.2.2.2 (by decide)⟩

/-! ## `Read<T>` -/

theorem bitOfs_advance (n : Nat) (s : DataDeserializer W) : (advance n s).bitOfs < 8 := by
  simp only [advance]; omega

theorem ReadBytes_eq (k : Nat) (s : DataDeserializer W) (hb : s.bitOfs < 8)
    (h : 8 * k ≤ BitsLeft s) :
    ReadBytes k s
      = some ((List.range k).map (fun i => (readBitsLoop 8 (advance (8 * i) s)).1 % 256),
          advance (8 * k) s) := by
  induction k generalizing s with
  | zero => simp [ReadBytes, advance_zero s hb]
  | succ k ih =>
    have h8 : 8 ≤ BitsLeft s := by omega
    have e1 := BitsLeft_advance s 8 hb h8
    have ih1 := ih (advance 8 s) (bitOfs_advance 8 s) (by omega)
    simp only [ReadBytes, ReadBitsToU32_eq 8 s (by omega) (by omega) h8, ih1]
    rw [List.range_succ_eq_map, List.map_cons, List.map_map, advance_advance]
    simp only [Nat.mul_zero, advance_zero s hb, Option.some.injEq, Prod.mk.injEq, List.cons.injEq,
      true_and]
    constructor
    · apply List.map_congr_left
      intro i _
      simp only [Function.comp, advance_advance]
      have : 8 + 8 * i = 8 * i.succ := by omega
      rw [this]
    · have : 8 + 8 * k = 8 * (k + 1) := by omega
      rw [this]

theorem read8_aligned (s : DataDeserializer W) (h : s.bitOfs = 0) :
    (readBitsLoop 8 s).1 = s.data.getD s.elemOfs 0 % 256 := by
  have hlt := readBitsLoop_lt 8 s
  have hj : ∀ j, j < 8 →
      (readBitsLoop 8 s).1 / 2 ^ j % 2 = s.data.getD s.elemOfs 0 / 2 ^ j % 2 := by
    intro j hj
    rw [readBitsLoop_bit 8 s j hj]
    simp only [streamBit, logicalPos, h, Nat.add_zero]
    have a1 : (s.elemOfs * 8 + j) / 8 = s.elemOfs := by omega
    have a2 : (s.elemOfs * 8 + j) % 8 = j := by omega
    rw [a1, a2]
  have h0 := hj 0 (by omega)
  have h1 := hj 1 (by omega)
  have h2 := hj 2 (by omega)
  have h3 := hj 3 (by omega)
  have h4 := hj 4 (by omega)
  have h5 := hj 5 (by omega)
  have h6 := hj 6 (by omega)
  have h7 := hj 7 (by omega)
  generalize s.data.getD s.elemOfs 0 = d at h0 h1 h2 h3 h4 h5 h6 h7 ⊢
  generalize (readBitsLoop 8 s).1 = x at hlt h0 h1 h2 h3 h4 h5 h6 h7 ⊢
  norm_num at hlt h0 h1 h2 h3 h4 h5 h6 h7
  omega

theorem leBytes_length (k v : Nat) : (leBytes k v).length = k := by
  induction k generalizing v with
  | zero => rfl
  | succ k ih => simp [leBytes, ih]

theorem leValue_leBytes (k v : Nat) (hv : v < 256 ^ k) : leValue (leBytes k v) = v := by
  induction k generalizing v with
  | zero =>
    simp only [pow_zero] at hv
    simp only [leBytes, leValue]
    omega
  | succ k ih =>
    have h1 : v / 256 < 256 ^ k := by
      apply Nat.div_lt_of_lt_mul
      rw [pow_succ, mul_comm] at hv
      exact hv
    simp only [leBytes, leValue, ih (v / 256) h1]
    omega

theorem ReadBytes_leBytes (k : Nat) (s : DataDeserializer W) (v : Nat) (hb : s.bitOfs = 0)
    (h : 8 * k ≤ BitsLeft s)
    (hd : ∀ i, i < k → s.data.getD (s.elemOfs + i) 0 = (leBytes k v).getD i 0) :
    ReadBytes k s = some (leBytes k v, advance (8 * k) s) := by
  induction k generalizing s v with
  | zero => simp [ReadBytes, leBytes, advance_zero s (by omega)]
  | succ k ih =>
    have h8 : 8 ≤ BitsLeft s := by omega
    have e1 := BitsLeft_advance s 8 (by omega) h8
    have hb1 : (advance 8 s).bitOfs = 0 := by
      simp only [advance, logicalPos, hb]; omega
    have he1 : (advance 8 s).elemOfs = s.elemOfs + 1 := by
      simp only [advance, logicalPos, hb]; omega
    have ih1 := ih (advance 8 s) (v / 256) hb1 (by omega) (by
      intro i hi
      have := hd (i + 1) (by omega)
      rw [he1]
      simp only [leBytes, List.getD_cons_succ] at this
      rw [← this]
      have e : s.elemOfs + 1 + i = s.elemOfs + (i + 1) := by omega
      rw [e]
      rfl)
    have h0 := hd 0 (by omega)
    simp only [leBytes, Nat.add_zero, List.getD_cons_zero] at h0
    simp only [ReadBytes, ReadBitsToU32_eq 8 s (by omega) (by omega) h8, ih1, leBytes,
      read8_aligned s hb, h0, advance_advance]
    have : 8 + 8 * k = 8 * (k + 1) := by omega
    rw [this]
    simp

theorem eq_of_low8_bits {x y : Nat} (hx : x < 256) (hy : y < 256)
    (h : ∀ j, j < 8 → x / 2 ^ j % 2 = y / 2 ^ j % 2) : x = y := by
  have h0 := h 0 (by omega)
  have h1 := h 1 (by omega)
  have h2 := h 2 (by omega)
  have h3 := h 3 (by omega)
  have h4 := h 4 (by omega)
  have h5 := h 5 (by omega)
  have h6 := h 6 (by omega)
  have h7 := h 7 (by omega)
  norm_num at h0 h1 h2 h3 h4 h5 h6 h7
  omega

theorem streamBit_cons_add8 (b : Nat) (bs : List Nat) (j : Nat) :
    streamBit (b :: bs) (j + 8) = streamBit bs j := by
  have a1 : (j + 8) / 8 = j / 8 + 1 := by omega
  have a2 : (j + 8) % 8 = j % 8 := by omega
  simp only [streamBit, a1, a2, List.getD_cons_succ]

theorem streamBit_cons_lt8 (b : Nat) (bs : List Nat) (j : Nat) (hj : j < 8) :
    streamBit (b :: bs) j = b / 2 ^ j % 2 := by
  have a1 : j / 8 = 0 := by omega
  have a2 : j % 8 = j := by omega
  simp only [streamBit, a1, a2, List.getD_cons_zero]

theorem ReadBytes_stream (k : Nat) (s : DataDeserializer W) (v : Nat) (hb : s.bitOfs < 8)
    (h : 8 * k ≤ BitsLeft s)
    (hd : ∀ j, j < 8 * k → streamBit s.data (logicalPos s + j) = streamBit (leBytes k v) j) :
    ReadBytes k s = some (leBytes k v, advance (8 * k) s) := by
  induction k generalizing s v with
  | zero => simp [ReadBytes, leBytes, advance_zero s hb]
  | succ k ih =>
    have h8 : 8 ≤ BitsLeft s := by omega
    have e1 := BitsLeft_advance s 8 hb h8
    have hx : (readBitsLoop 8 s).1 = v % 256 := by
      have hlt := readBitsLoop_lt 8 s
      norm_num at hlt
      apply eq_of_low8_bits hlt (Nat.mod_lt _ (by decide))
      intro j hj
      rw [readBitsLoop_bit 8 s j hj, hd j (by omega)]
      simp only [leBytes]
      exact streamBit_cons_lt8 _ _ j hj
    have ih1 := ih (advance 8 s) (v / 256) (bitOfs_advance 8 s) (by omega) (by
      intro j hj
      have := hd (j + 8) (by omega)
      simp only [leBytes, streamBit_cons_add8] at this
      rw [← this, logicalPos_advance]
      have e : logicalPos s + 8 + j = logicalPos s + (j + 8) := by omega
      rw [e]
      rfl)
    simp only [ReadBytes, ReadBitsToU32_eq 8 s (by omega) (by omega) h8, ih1, leBytes, hx,
      advance_advance]
    have : 8 + 8 * k = 8 * (k + 1) := by omega
    rw [this]
    simp

theorem Read_eq (proceed : W → W) (k : Nat) (s : DataDeserializer W) (hb : s.bitOfs < 8)
    (h : 8 * k ≤ BitsLeft s) :
    Read proceed k s
      = some ((List.range k).map (fun i => (readBitsLoop 8 (advance (8 * i) s)).1 % 256),
          { advance (8 * k) s with iter := s.iter.map proceed }) := by
  simp only [Read, ReadBytes_eq k s hb h]
  rfl

/-- C6: for a type of `k` bytes and a state with `bitOfs` in `[0,7]` and at least `8k` bits
left, `Read<T>` performs `k` successive 8-bit reads, the `i`-th of them at the cursor moved `8i`
bits on, and stores its result as byte `i` of the value; `BitsLeft()` goes down by exactly
`8k`, and the schema walker, if there is one, proceeds once. If the next `8k` bits of the
stream behind the cursor, at any bit offset, are the bits of the little-endian bytes of
`v < 256^k`, the bytes returned are those of `v`, and read as a little-endian number they give
`v`; at a byte boundary that is the case when the next `k` bytes of the buffer are the
little-endian bytes of `v`. -/
theorem Read_fixed_width (proceed : W → W) (k : Nat) (s : DataDeserializer W)
    (hb : s.bitOfs < 8) (h : 8 * k ≤ BitsLeft s) :
    ∃ bs t, Read proceed k s = some (bs, t) ∧ bs.length = k ∧
      (∀ i, i < k → ∃ b, ReadBitsToU32 8 (advance (8 * i) s)
          = some (b, advance (8 * (i + 1)) s) ∧ bs.getD i 0 = b) ∧
      t = { advance (8 * k) s with iter := s.iter.map proceed } ∧
      BitsLeft t + 8 * k = BitsLeft s ∧
      (∀ v, v < 256 ^ k →
        (∀ j, j < 8 * k →
          streamBit s.data (logicalPos s + j) = streamBit (leBytes k v) j) →
        bs = leBytes k v ∧ leValue bs = v) ∧
      (∀ v, v < 256 ^ k → s.bitOfs = 0 →
        (∀ i, i < k → s.data.getD (s.elemOfs + i) 0 = (leBytes k v).getD i 0) →
        bs = leBytes k v ∧ leValue bs = v) := by
  refine ⟨_, _, Read_eq proceed k s hb h, by simp, fun i hi => ?_, rfl, ?_, fun v hv hd => ?_,
    fun v hv h0 hd => ?_⟩
  · have e1 := BitsLeft_advance s (8 * i) hb (by omega)
    have hr := ReadBitsToU32_eq 8 (advance (8 * i) s) (by omega) (by omega) (by omega)
    rw [advance_advance] at hr
    refine ⟨_, hr, ?_⟩
    have hlt := readBitsLoop_lt 8 (advance (8 * i) s)
    simp only [List.getD_eq_getElem?_getD, List.getElem?_map, List.getElem?_range hi,
      Option.map_some', Option.getD_some]
    norm_num at hlt
    omega
  · have e1 := BitsLeft_advance s (8 * k) hb h
    have e2 : BitsLeft ({ advance (8 * k) s with iter := s.iter.map proceed } :
        DataDeserializer W) = BitsLeft (advance (8 * k) s) := rfl
    rw [e2, e1]; omega
  · have e1 := ReadBytes_eq k s hb h
    rw [ReadBytes_stream k s v hb h hd] at e1
    simp only [Option.some.injEq, Prod.mk.injEq] at e1
    rw [← e1.1]
    exact ⟨rfl, leValue_leBytes k v hv⟩
  · have e1 := ReadBytes_eq k s hb h
    rw [ReadBytes_leBytes k s v h0 h hd] at e1
    simp only [Option.some.injEq, Prod.mk.injEq] at e1
    rw [← e1.1]
    exact ⟨rfl, leValue_leBytes k v hv⟩

/-- Witness of C6: a one-byte value read at bit offset 4 of the buffer `B0 0A`, where the next
eight bits of the stream are those of `0xAB`. -/
theorem Read_fixed_width_witness :
    Read Nat.succ 1
        ({ data := [176, 10], size := 2, elemOfs := 0, bitOfs := 4, iter := some 0 } :
          DataDeserializer Nat)
      = some ([171],
          { data := [176, 10], size := 2, elemOfs := 1, bitOfs := 4, iter := some 1 }) ∧
    leValue [171] = 171 := by
  obtain ⟨bs, t, h1, _, _, h4, _, h6, _⟩ :=
    Read_fixed_width Nat.succ 1
      ({ data := [176, 10], size := 2, elemOfs := 0, bitOfs := 4, iter := some 0 } :
        DataDeserializer Nat) (by decide) (by decide)
  have h7 := h6 171 (by decide) (by decide)
  rw [h7.1, h4] at h1
  exact ⟨h1, by decide⟩

/-! ## `ReadArray<T>` -/

theorem Read_moved (proceed : W → W) (k : Nat) (s : DataDeserializer W) (hb : s.bitOfs < 8)
    (h : 8 * k ≤ BitsLeft s) :
    ∃ v t, Read proceed k s = some (v, t) ∧ Moved (8 * k) s t :=
  ⟨_, _, Read_eq proceed k s hb h, Moved_iter (Moved_advance s (8 * k) hb h) _⟩

theorem ReadSeq_moved (proceed : W → W) (k n : Nat) (s : DataDeserializer W)
    (hb : s.bitOfs < 8) (h : n * (8 * k) ≤ BitsLeft s) :
    ∃ vs t, ReadSeq proceed k n s = some (vs, t) ∧ vs.length = n ∧ Moved (n * (8 * k)) s t := by
  induction n generalizing s with
  | zero =>
    refine ⟨[], s, rfl, rfl, ?_⟩
    rw [Nat.zero_mul]
    exact Moved_refl s hb
  | succ n ih =>
    rw [Nat.succ_mul] at h
    obtain ⟨v, t1, hr, hm⟩ := Read_moved proceed k s hb (by omega)
    obtain ⟨vs, t2, hs, hl, hm2⟩ := ih t1 hm.2.2.1 (by have := hm.2.2.2.2; omega)
    refine ⟨v :: vs, t2, ?_, by simp [hl], ?_⟩
    · simp only [ReadSeq, hr, hs]
    · rw [Nat.succ_mul, Nat.add_comm]
      exact Moved_trans hm hm2

theorem ReadArrayLoop_eq (proceed : W → W) (k n i : Nat) (dst : List (List Nat))
    (s : DataDeserializer W) (hlen : i + n ≤ dst.length) :
    ReadArrayLoop proceed k n i dst s
      = (ReadSeq proceed k n s).map
          (fun r => (dst.take i ++ r.1 ++ dst.drop (i + n), r.2)) := by
  induction n generalizing i dst s with
  | zero => simp [ReadArrayLoop, ReadSeq]
  | succ n ih =>
    cases hr : Read proceed k s with
    | none => simp [ReadArrayLoop, ReadSeq, hr]
    | some q =>
      obtain ⟨v, s1⟩ := q
      have hi : i < dst.length := by omega
      have e1 : (dst.set i v).take (i + 1) = dst.take i ++ [v] := by
        rw [List.set_eq_take_append_cons_drop, if_pos hi]
        have hl : (List.take i dst).length = i := by simp; omega
        rw [List.take_append_eq_append_take, hl]
        simp [List.take_of_length_le]
      have e2 : (dst.set i v).drop (i + 1 + n) = dst.drop (i + (n + 1)) := by
        rw [List.drop_set_of_lt _ _ (by omega)]
        congr 1
        omega
      simp only [ReadArrayLoop, ReadSeq, hr, ih (i + 1) (dst.set i v) s1 (by simp; omega), e1, e2]
      cases ReadSeq proceed k n s1 with
      | none => rfl
      | some r => simp

/-- C7: for an element type of `k` bytes, a count `n`, storage `dst` of at least `n` elements
and a state with `bitOfs` in `[0,7]` and at least `n*8*k` bits left, `ReadArray<T>(dst, n)`
returns, writes to `dst[i]` the `i`-th result of `n` successive `Read<T>()` calls for
`i = 0..n-1`, leaves the rest of `dst` as it was, ends with the byte and bit offset of those
`n` calls (with their whole final state when `n > 0`), and lowers `BitsLeft()` by exactly
`n*8*k`. -/
theorem ReadArray_eq_ReadSeq (proceed : W → W) (k n : Nat) (dst : List (List Nat))
    (s : DataDeserializer W) (hb : s.bitOfs < 8) (hbits : n * 8 * k ≤ BitsLeft s)
    (hdst : n ≤ dst.length) :
    ∃ vs t dst1 t1, ReadSeq proceed k n s = some (vs, t) ∧ vs.length = n ∧
      ReadArray proceed k dst n s = some (dst1, t1) ∧
      dst1 = vs ++ dst.drop n ∧ dst1.length = dst.length ∧
      (∀ i, i < n → dst1[i]? = vs[i]?) ∧
      t1.elemOfs = t.elemOfs ∧ t1.bitOfs = t.bitOfs ∧ (0 < n → t1 = t) ∧
      BitsLeft t1 + n * 8 * k = BitsLeft s := by
  rw [Nat.mul_assoc] at hbits ⊢
  obtain ⟨vs, t, hs, hl, hm⟩ := ReadSeq_moved proceed k n s hb hbits
  have hloop := ReadArrayLoop_eq proceed k n 0 dst s (by omega)
  rw [hs] at hloop
  simp only [Option.map_some', List.take_zero, List.nil_append, Nat.zero_add] at hloop
  refine ⟨vs, t, vs ++ dst.drop n,
    if n = 0 then { t with iter := t.iter.map proceed } else t, hs, hl, ?_, rfl, ?_, ?_, ?_, ?_,
    ?_, ?_⟩
  · simp only [ReadArray, hloop]
  · simp only [List.length_append, List.length_drop, hl]; omega
  · intro i hi
    rw [List.getElem?_append_left (by omega)]
  · split_ifs <;> rfl
  · split_ifs <;> rfl
  · intro hn
    rw [if_neg (by omega)]
  · have e : BitsLeft (if n = 0 then { t with iter := t.iter.map proceed } else t)
        = BitsLeft t := by
      split_ifs <;> rfl
    rw [e]
    exact hm.2.2.2.2

/-- Witness of C7: two two-byte elements read in schema mode into storage of three elements. -/
theorem ReadArray_eq_ReadSeq_witness :
    ReadArray Nat.succ 2 [[], [], [7]] 2 (DataDeserializer.init [120, 86, 52, 18, 9] (some 0))
      = some ([[120, 86], [52, 18], [7]],
          { data := [120, 86, 52, 18, 9], size := 5, elemOfs := 4, bitOfs := 0,
            iter := some 2 }) ∧
    ReadSeq Nat.succ 2 2 (DataDeserializer.init [120, 86, 52, 18, 9] (some 0))
      = some ([[120, 86], [52, 18]],
          { data := [120, 86, 52, 18, 9], size := 5, elemOfs := 4, bitOfs := 0,
            iter := some 2 }) := by
  obtain ⟨vs, t, dst1, t1, h1, _, h3, h4, _, _, _, _, h9, _⟩ :=
    ReadArray_eq_ReadSeq Nat.succ 2 2 [[], [], [7]]
      (DataDeserializer.init [120, 86, 52, 18, 9] (some 0)) (by decide) (by decide) (by decide)
  have e : ReadSeq Nat.succ 2 2 (DataDeserializer.init [120, 86, 52, 18, 9] (some 0))
      = some ([[120, 86], [52, 18]],
          { data := [120, 86, 52, 18, 9], size := 5, elemOfs := 4, bitOfs := 0,
            iter := some 2 }) := by decide
  rw [e] at h1
  simp only [Option.some.injEq, Prod.mk.injEq] at h1
  obtain ⟨rfl, rfl⟩ := h1
  rw [h9 (by decide)] at h3
  rw [h4] at h3
  exact ⟨h3, e⟩

/-- C8: `ReadArray<T>(dst, 0)` calls `Read<T>()` not at all and returns `dst` as it was. With a
schema walker `w` the state after the call differs from the state before it only in the
walker, which is `ProceedToNextVariable` applied once to `w`, so the byte offset, the bit
offset and `BitsLeft()` are unchanged; without a walker the state is unchanged. -/
theorem ReadArray_zero (proceed : W → W) (k : Nat) (dst : List (List Nat))
    (s : DataDeserializer W) :
    (∀ w, s.iter = some w →
      ReadArray proceed k dst 0 s = some (dst, { s with iter := some (proceed w) }) ∧
      ({ s with iter := some (proceed w) } : DataDeserializer W).elemOfs = s.elemOfs ∧
      ({ s with iter := some (proceed w) } : DataDeserializer W).bitOfs = s.bitOfs ∧
      BitsLeft ({ s with iter := some (proceed w) } : DataDeserializer W) = BitsLeft s) ∧
    (s.iter = none → ReadArray proceed k dst 0 s = some (dst, s)) := by
  constructor
  · intro w hw
    refine ⟨?_, rfl, rfl, rfl⟩
    simp [ReadArray, ReadArrayLoop, hw]
  · intro hn
    cases s with
    | mk d sz e b it =>
      simp only at hn
      subst hn
      simp [ReadArray, ReadArrayLoop]

/-- Witness of C8: an empty array read in schema mode after one byte was read. -/
theorem ReadArray_zero_witness :
    ReadArray Nat.succ 4 [[1], [2]] 0
        ({ data := [120, 86], size := 2, elemOfs := 1, bitOfs := 0, iter := some 5 } :
          DataDeserializer Nat)
      = some ([[1], [2]],
          { data := [120, 86], size := 2, elemOfs := 1, bitOfs := 0, iter := some 6 }) :=
  ((ReadArray_zero Nat.succ 4 [[1], [2]]
    ({ data := [120, 86], size := 2, elemOfs := 1, bitOfs := 0, iter := some 5 } :
      DataDeserializer Nat)).1 5 rfl).1

/-! ## Position consistency -/

theorem ReadBits_inv_moved {c : Nat} {s t : DataDeserializer W} {v : Nat} (hb : s.bitOfs < 8)
    (h : ReadBits c s = some (v, t)) : Moved c s t := by
  obtain ⟨⟨_, _, h3⟩, _, ht⟩ := ReadBitsToU32_some h
  rw [ht]
  exact Moved_advance s c hb h3

theorem ReadBytes_inv_moved {k : Nat} {s t : DataDeserializer W} {bs : List Nat}
    (hb : s.bitOfs < 8) (h : ReadBytes k s = some (bs, t)) : Moved (8 * k) s t := by
  induction k generalizing s bs t with
  | zero =>
    simp only [ReadBytes, Option.some.injEq, Prod.mk.injEq] at h
    rw [← h.2]
    exact Moved_refl s hb
  | succ k ih =>
    simp only [ReadBytes] at h
    cases hr : ReadBitsToU32 8 s with
    | none => simp [hr] at h
    | some q =>
      obtain ⟨b, s1⟩ := q
      have m1 : Moved 8 s s1 := ReadBits_inv_moved hb hr
      cases hr2 : ReadBytes k s1 with
      | none => simp [hr, hr2] at h
      | some q2 =>
        obtain ⟨bs2, s2⟩ := q2
        simp only [hr, hr2, Option.some.injEq, Prod.mk.injEq] at h
        have m2 := ih m1.2.2.1 hr2
        rw [← h.2]
        have e : 8 * (k + 1) = 8 + 8 * k := by omega
        rw [e]
        exact Moved_trans m1 m2

theorem Read_inv_moved {proceed : W → W} {k : Nat} {s t : DataDeserializer W} {bs : List Nat}
    (hb : s.bitOfs < 8) (h : Read proceed k s = some (bs, t)) : Moved (8 * k) s t := by
  simp only [Read] at h
  cases hr : ReadBytes k s with
  | none => simp [hr] at h
  | some q =>
    obtain ⟨bs1, s1⟩ := q
    simp only [hr, Option.some.injEq, Prod.mk.injEq] at h
    rw [← h.2]
    exact Moved_iter (ReadBytes_inv_moved hb hr) _

theorem ReadArrayLoop_inv_moved {proceed : W → W} {k n i : Nat} {dst dst1 : List (List Nat)}
    {s t : DataDeserializer W} (hb : s.bitOfs < 8)
    (h : ReadArrayLoop proceed k n i dst s = some (dst1, t)) : Moved (n * (8 * k)) s t := by
  induction n generalizing i dst s with
  | zero =>
    simp only [ReadArrayLoop, Option.some.injEq, Prod.mk.injEq] at h
    rw [← h.2, Nat.zero_mul]
    exact Moved_refl s hb
  | succ n ih =>
    simp only [ReadArrayLoop] at h
    cases hr : Read proceed k s with
    | none => simp [hr] at h
    | some q =>
      obtain ⟨v, s1⟩ := q
      simp only [hr] at h
      have m1 := Read_inv_moved hb hr
      have m2 := ih m1.2.2.1 h
      rw [Nat.succ_mul, Nat.add_comm]
      exact Moved_trans m1 m2

theorem ReadArray_inv_moved {proceed : W → W} {k n : Nat} {dst dst1 : List (List Nat)}
    {s t : DataDeserializer W} (hb : s.bitOfs < 8)
    (h : ReadArray proceed k dst n s = some (dst1, t)) : Moved (n * (8 * k)) s t := by
  simp only [ReadArray] at h
  cases hr : ReadArrayLoop proceed k n 0 dst s with
  | none => simp [hr] at h
  | some q =>
    obtain ⟨d1, s1⟩ := q
    simp only [hr, Option.some.injEq, Prod.mk.injEq] at h
    have m1 := ReadArrayLoop_inv_moved hb hr
    rw [← h.2]
    split_ifs
    · exact Moved_iter m1 _
    · exact m1

theorem ReadVLEPath_inv_moved {n1 n2 n3 b : Nat} {s t : DataDeserializer W} {p : VLEPath}
    {v : Nat} (hb : s.bitOfs < 8) (h : ReadVLEPath n1 n2 n3 s = some (p, v, t))
    (hv : vleBits n1 n2 n3 p = some b) : Moved b s t := by
  obtain ⟨_, i2, _, i4, _, i6⟩ := ReadVLEPath_inv h
  cases p with
  | exhausted1 => simp [vleBits] at hv
  | exhausted2 => simp [vleBits] at hv
  | exhausted3 => simp [vleBits] at hv
  | tier1 =>
    simp only [vleBits, Option.some.injEq] at hv
    obtain ⟨a, ht⟩ := i2 rfl
    rw [← hv, ht]
    exact Moved_advance s _ hb a
  | tier2 =>
    simp only [vleBits, Option.some.injEq] at hv
    obtain ⟨a, c, ht⟩ := i4 rfl
    rw [← hv, ht]
    exact Moved_trans (Moved_advance s _ hb a)
      (Moved_advance _ _ (bitOfs_advance _ s) c)
  | tier3 =>
    simp only [vleBits, Option.some.injEq] at hv
    obtain ⟨_, a, c, d, ht⟩ := i6 rfl
    rw [← hv, ht]
    exact Moved_trans (Moved_trans (Moved_advance s _ hb a)
      (Moved_advance _ _ (bitOfs_advance _ s) c)) (Moved_advance _ _ (bitOfs_advance _ _) d)

theorem Op_run_moved {proceed : W → W} {op : Op} {s t : DataDeserializer W} {b : Nat}
    (hb : s.bitOfs < 8) (h : op.run proceed s = some (b, t)) : Moved b s t := by
  cases op with
  | readBits c =>
    simp only [Op.run] at h
    cases hr : ReadBits c s with
    | none => simp [hr] at h
    | some q =>
      simp only [hr, Option.map_some', Option.some.injEq, Prod.mk.injEq] at h
      rw [← h.1, ← h.2]
      exact ReadBits_inv_moved hb hr
  | read k =>
    simp only [Op.run] at h
    cases hr : Read proceed k s with
    | none => simp [hr] at h
    | some q =>
      simp only [hr, Option.map_some', Option.some.injEq, Prod.mk.injEq] at h
      rw [← h.1, ← h.2]
      exact Read_inv_moved hb hr
  | readArray k n =>
    simp only [Op.run] at h
    cases hr : ReadArray proceed k (List.replicate n []) n s with
    | none => simp [hr] at h
    | some q =>
      simp only [hr, Option.map_some', Option.some.injEq, Prod.mk.injEq] at h
      rw [← h.1, ← h.2]
      exact ReadArray_inv_moved hb hr
  | readVLE n1 n2 n3 =>
    simp only [Op.run] at h
    cases hr : ReadVLEPath n1 n2 n3 s with
    | none => simp [hr] at h
    | some q =>
      obtain ⟨p, v, u⟩ := q
      simp only [hr] at h
      cases hv : vleBits n1 n2 n3 p with
      | none => simp [hv] at h
      | some c =>
        simp only [hv, Option.map_some', Option.some.injEq, Prod.mk.injEq] at h
        rw [← h.1, ← h.2]
        exact ReadVLEPath_inv_moved hb hr hv

theorem runOps_moved {proceed : W → W} {ops : List Op} {s t : DataDeserializer W} {n : Nat}
    (hb : s.bitOfs < 8) (h : runOps proceed ops s = some (n, t)) : Moved n s t := by
  induction ops generalizing s n t with
  | nil =>
    simp only [runOps, Option.some.injEq, Prod.mk.injEq] at h
    rw [← h.1, ← h.2]
    exact Moved_refl s hb
  | cons op ops ih =>
    simp only [runOps] at h
    cases hr : op.run proceed s with
    | none => simp [hr] at h
    | some q =>
      obtain ⟨b, s1⟩ := q
      have m1 := Op_run_moved hb hr
      cases hr2 : runOps proceed ops s1 with
      | none => simp [hr, hr2] at h
      | some q2 =>
        obtain ⟨c, s2⟩ := q2
        simp only [hr, hr2, Option.some.injEq, Prod.mk.injEq] at h
        rw [← h.1, ← h.2]
        exact Moved_trans m1 (ih m1.2.2.1 hr2)

/-- C9: for a deserializer over a buffer of `size` bytes with `size*8 < 2^32`, started at bit
position 0, after any sequence of successful `ReadBits`, `Read<T>`, `ReadArray` and `ReadVLE`
calls that asked for `n` bits in total: `n <= 8*size`, `BitPos() == n mod 8`,
`BytePos() == n div 8`, `BytesLeft() == size - BytePos()`, `BitsLeft() == 8*size - n`, and
`BitsLeft()` plus `n` is the `BitsLeft()` of the start. The four queries are functions of the
state alone and return no state. -/
theorem position_consistency (proceed : W → W) (data : List Nat) (iter : Option W)
    (ops : List Op) (n : Nat) (t : DataDeserializer W)
    (hsize : data.length * 8 < 4294967296)
    (h : runOps proceed ops (DataDeserializer.init data iter) = some (n, t)) :
    n ≤ 8 * data.length ∧ BitPos t = n % 8 ∧ BytePos t = n / 8 ∧
    BytesLeft t = data.length - BytePos t ∧ BitsLeft t = 8 * data.length - n ∧
    BitsLeft t + n = BitsLeft (DataDeserializer.init data iter) := by
  obtain ⟨_, m2, m3, m4, m5⟩ := runOps_moved (by simp [DataDeserializer.init]) h
  have h0 : BitsLeft (DataDeserializer.init data iter) = 8 * data.length := by
    simp only [BitsLeft, DataDeserializer.init]
    split_ifs <;> omega
  simp only [logicalPos, DataDeserializer.init, Nat.zero_mul, Nat.zero_add] at m2 m4
  rw [h0] at m5
  refine ⟨by omega, ?_, ?_, ?_, by omega, by omega⟩
  · simp only [BitPos]; omega
  · simp only [BytePos]; omega
  · simp only [BytesLeft, BytePos, m2]
    split_ifs <;> omega

/-- Witness of C9: `ReadBits(3)`, a `ReadVLE` of the widths (4,4,8) that ends at tier 2, a
one-byte `Read` and a `ReadArray` of one byte on a buffer of five bytes: 29 bits. -/
theorem position_consistency_witness :
    runOps id [Op.readBits 3, Op.readVLE 4 4 8, Op.read 1, Op.readArray 1 1]
        (DataDeserializer.init [178, 0, 52, 18, 85] (none : Option Unit))
      = some (29,
          { data := [178, 0, 52, 18, 85], size := 5, elemOfs := 3, bitOfs := 5, iter := none }) ∧
    BitPos ({ data := [178, 0, 52, 18, 85], size := 5, elemOfs := 3, bitOfs := 5,
              iter := none } : DataDeserializer Unit) = 29 % 8 ∧
    BytePos ({ data := [178, 0, 52, 18, 85], size := 5, elemOfs := 3, bitOfs := 5,
               iter := none } : DataDeserializer Unit) = 29 / 8 ∧
    BitsLeft ({ data := [178, 0, 52, 18, 85], size := 5, elemOfs := 3, bitOfs := 5,
                iter := none } : DataDeserializer Unit) = 8 * 5 - 29 := by
  have h := position_consistency id [178, 0, 52, 18, 85] (none : Option Unit)
    [Op.readBits 3, Op.readVLE 4 4 8, Op.read 1, Op.readArray 1 1] 29
    { data := [178, 0, 52, 18, 85], size := 5, elemOfs := 3, bitOfs := 5, iter := none }
    (by decide) (by decide)
  exact ⟨by decide, h.2.1, h.2.2.1, h.2.2.2.2.1⟩

/-! ## `ReadBits` -/

/-- C10: for `numBits` in `[1,32]` and a state at logical bit position `p` with
`BitsLeft() >= numBits`, `ReadBits(numBits)` returns the number below `2^numBits` whose bit
`i < numBits` is bit `(p+i) mod 8` of buffer byte `(p+i) div 8` and whose higher bits are 0,
and leaves the cursor `numBits` bits further on (with `BitsLeft()` lowered by `numBits` when
`bitOfs` is in `[0,7]`). On the buffer `[0b10110010]`, `ReadBits(3)` returns 2 and leaves
`BitPos() == 3`, then `ReadBits(5)` returns 22 and leaves `BytesLeft() == 0`. -/
theorem ReadBits_bits (numBits : Nat) (s : DataDeserializer W) (h1 : 1 ≤ numBits)
    (h32 : numBits ≤ 32) (h : numBits ≤ BitsLeft s) :
    (∃ v t, ReadBits numBits s = some (v, t) ∧ v < 2 ^ numBits ∧
      (∀ i, i < numBits →
        v.testBit i
          = (s.data.getD ((logicalPos s + i) / 8) 0).testBit ((logicalPos s + i) % 8)) ∧
      (∀ i, numBits ≤ i → v.testBit i = false) ∧
      t = advance numBits s ∧ logicalPos t = logicalPos s + numBits ∧ t.bitOfs < 8 ∧
      (s.bitOfs < 8 → BitsLeft t + numBits = BitsLeft s)) ∧
    (ReadBits 3 (DataDeserializer.init [178] (none : Option Unit))).map
        (fun r => (r.1, BitPos r.2)) = some (2, 3) ∧
    ((ReadBits 3 (DataDeserializer.init [178] (none : Option Unit))).bind
        (fun r => ReadBits 5 r.2)).map (fun r => (r.1, BytesLeft r.2)) = some (22, 0) := by
  refine ⟨⟨_, _, ReadBitsToU32_eq numBits s h1 h32 h, readBitsLoop_lt numBits s, fun i hi => ?_,
    fun i hi => ?_, rfl, logicalPos_advance s numBits, bitOfs_advance numBits s, fun hb => ?_⟩,
    by decide, by decide⟩
  · have hbit := readBitsLoop_bit numBits s i hi
    simp only [streamBit] at hbit
    rw [Nat.testBit_to_div_mod, Nat.testBit_to_div_mod, hbit]
  · exact Nat.testBit_lt_two_pow
      (Nat.lt_of_lt_of_le (readBitsLoop_lt numBits s) (Nat.pow_le_pow_right (by decide) hi))
  · rw [BitsLeft_advance s numBits hb h]; omega

/-- Witness of C10: seven bits read from bit position 3 of the buffer `[0xB2, 0x01]`. -/
theorem ReadBits_bits_witness :
    (1 ≤ 7 ∧ 7 ≤ 32 ∧
      7 ≤ BitsLeft ({ data := [178, 1], size := 2, elemOfs := 0, bitOfs := 3, iter := none } :
        DataDeserializer Unit)) ∧
    ∃ v t,
      ReadBits 7 ({ data := [178, 1], size := 2, elemOfs := 0, bitOfs := 3, iter := none } :
        DataDeserializer Unit) = some (v, t) ∧
      v < 2 ^ 7 ∧
      t = advance 7 ({ data := [178, 1], size := 2, elemOfs := 0, bitOfs := 3, iter := none } :
        DataDeserializer Unit) ∧
      t.bitOfs < 8 :=
  ⟨⟨by decide, by decide, by decide⟩,
    match (ReadBits_bits 7
      ({ data := [178, 1], size := 2, elemOfs := 0, bitOfs := 3, iter := none } :
        DataDeserializer Unit) (by decide) (by decide) (by decide)).1 with
    | ⟨v, t, a, b, _, _, c, _, d, _⟩ => ⟨v, t, a, b, c, d⟩⟩

/-! ## C11: `ReadString` -/

theorem sanitizeChar_allowed (b : Nat) :
    (32 ≤ sanitizeChar b ∧ sanitizeChar b ≤ 253) ∨ sanitizeChar b = 13 ∨ sanitizeChar b = 10 ∨
      sanitizeChar b = 9 := by
  unfold sanitizeChar
  split_ifs with h
  · exact h
  · exact Or.inl (by decide)

theorem readLengthPrefixed_eq (s s1 : DataDeserializer W) (len : Nat)
    (hlen : ReadBitsToU32 8 s = some (len, s1)) (hL : 8 * len ≤ BitsLeft s1) :
    s1 = advance 8 s ∧
    readLengthPrefixed s
      = some ((List.range len).map (fun i => (readBitsLoop 8 (advance (8 * i) s1)).1 % 256),
          advance (8 * len) s1) := by
  have hs1 : s1 = advance 8 s := (ReadBitsToU32_some hlen).2.2
  have hb1 : s1.bitOfs < 8 := hs1 ▸ bitOfs_advance 8 s
  refine ⟨hs1, ?_⟩
  simp only [readLengthPrefixed, hlen, ReadBytes_eq len s1 hb1 hL]

/-- C11: for a deserializer with no template, a state with `bitOfs` in `[0,7]` whose next
eight bits are a length `L` and that has at least `8*L` bits behind them, `ReadString` returns
a string of exactly `L` characters; character `i` is the `i`-th byte read behind the length if
that byte is in `[32,253]` or is `0x0D`, `0x0A` or `0x09`, and is the space `0x20` otherwise,
so every character returned is in the allow-list. At a byte boundary the length is the next
buffer byte and the `i`-th byte read is the buffer byte `i` places behind it. The payload
`00 1F 41 0A FF` decodes to `20 20 41 0A 20`. -/
theorem ReadString_sanitized
    (fromTemplate : DataDeserializer W → Option (List Nat × DataDeserializer W))
    (s s1 : DataDeserializer W) (len : Nat) (hi : s.iter = none) (hb : s.bitOfs < 8)
    (hlen : ReadBitsToU32 8 s = some (len, s1)) (hL : 8 * len ≤ BitsLeft s1) :
    (∃ str t, ReadString fromTemplate s = some (str, t) ∧ str.length = len ∧
      (∀ i, i < len → ∃ b, ReadBitsToU32 8 (advance (8 * i) s1)
          = some (b, advance (8 * (i + 1)) s1) ∧
        (((32 ≤ b ∧ b ≤ 253) ∨ b = 13 ∨ b = 10 ∨ b = 9) → str.getD i 0 = b) ∧
        (¬ ((32 ≤ b ∧ b ≤ 253) ∨ b = 13 ∨ b = 10 ∨ b = 9) → str.getD i 0 = 32)) ∧
      (∀ c, c ∈ str → (32 ≤ c ∧ c ≤ 253) ∨ c = 13 ∨ c = 10 ∨ c = 9) ∧
      (s.bitOfs = 0 → len = s.data.getD s.elemOfs 0 % 256 ∧
        ∀ i, i < len →
          (readBitsLoop 8 (advance (8 * i) s1)).1 = s.data.getD (s.elemOfs + 1 + i) 0 % 256) ∧
      BitsLeft t + (8 + 8 * len) = BitsLeft s) ∧
    (ReadString (fun _ => none) (DataDeserializer.init [5, 0, 31, 65, 10, 255]
        (none : Option Unit))).map (fun r => r.1) = some [32, 32, 65, 10, 32] := by
  obtain ⟨hs1, hr⟩ := readLengthPrefixed_eq s s1 len hlen hL
  have hb1 : s1.bitOfs < 8 := hs1 ▸ bitOfs_advance 8 s
  obtain ⟨⟨_, _, h8⟩, hv, _⟩ := ReadBitsToU32_some hlen
  have e8 := BitsLeft_advance s 8 hb h8
  rw [← hs1] at e8
  have hRS : ReadString fromTemplate s
      = some (List.map sanitizeChar ((List.range len).map
          (fun i => (readBitsLoop 8 (advance (8 * i) s1)).1 % 256)), advance (8 * len) s1) := by
    simp only [ReadString, hi, hr]
  refine ⟨⟨_, _, hRS, by simp, fun i hil => ?_, fun c hc => ?_,
    fun h0 => ⟨?_, fun i hil => ?_⟩, ?_⟩, by decide⟩
  · have e1 := BitsLeft_advance s1 (8 * i) hb1 (by omega)
    have hrd := ReadBitsToU32_eq 8 (advance (8 * i) s1) (by omega) (by omega) (by omega)
    rw [advance_advance] at hrd
    have hlt := readBitsLoop_lt 8 (advance (8 * i) s1)
    have hmod : (readBitsLoop 8 (advance (8 * i) s1)).1 % 256
        = (readBitsLoop 8 (advance (8 * i) s1)).1 := by
      norm_num at hlt
      omega
    have hget : (List.map sanitizeChar ((List.range len).map
        (fun i => (readBitsLoop 8 (advance (8 * i) s1)).1 % 256))).getD i 0
        = sanitizeChar ((readBitsLoop 8 (advance (8 * i) s1)).1) := by
      simp only [List.getD_eq_getElem?_getD, List.getElem?_map, List.getElem?_range hil,
        Option.map_some', Option.getD_some, hmod]
    refine ⟨_, hrd, fun ha => ?_, fun hna => ?_⟩
    · rw [hget, sanitizeChar, if_pos ha]
    · rw [hget, sanitizeChar, if_neg hna]
  · simp only [List.mem_map] at hc
    obtain ⟨a, _, rfl⟩ := hc
    exact sanitizeChar_allowed a
  · rw [hv, read8_aligned s h0]
  · have hb0 : (advance (8 * i) s1).bitOfs = 0 := by
      rw [hs1]; simp only [advance, logicalPos, h0]; omega
    rw [read8_aligned _ hb0]
    have he : (advance (8 * i) s1).elemOfs = s.elemOfs + 1 + i := by
      rw [hs1]; simp only [advance, logicalPos, h0]; omega
    have hd : (advance (8 * i) s1).data = s.data := by rw [hs1]; rfl
    rw [he, hd]
  · rw [BitsLeft_advance s1 (8 * len) hb1 hL]; omega

/-- Witness of C11: a string of two characters behind one byte already read. -/
theorem ReadString_sanitized_witness :
    ∃ str t, ReadString (fun _ => none)
        ({ data := [9, 2, 7, 200], size := 4, elemOfs := 1, bitOfs := 0, iter := none } :
          DataDeserializer Unit) = some (str, t) ∧ str.length = 2 ∧
      (∀ c, c ∈ str → (32 ≤ c ∧ c ≤ 253) ∨ c = 13 ∨ c = 10 ∨ c = 9) :=
  match (ReadString_sanitized (fun _ => none)
      ({ data := [9, 2, 7, 200], size := 4, elemOfs := 1, bitOfs := 0, iter := none } :
        DataDeserializer Unit)
      ({ data := [9, 2, 7, 200], size := 4, elemOfs := 2, bitOfs := 0, iter := none } :
        DataDeserializer Unit) 2 rfl (by decide) (by decide) (by decide)).1 with
  | ⟨str, t, a, b, _, c, _⟩ => ⟨str, t, a, b, c⟩

/-! ## C12, C15: the values of `ReadVLE` -/

/-- C12: the exhaustion sentinel is also a decoded value. With the widths (8,8,16), whose sum
is 32, on a buffer of five bytes `0xFF`, which holds the 34 bits of all three tiers, `ReadVLE`
takes no exhaustion exit, reads all three tiers and returns `0xFFFFFFFF`, the value that it
returns by the tier-1 exhaustion exit on a buffer of one byte. -/
theorem ReadVLE_sentinel_ambiguous :
    ∃ (n1 n2 n3 : Nat) (s t u : DataDeserializer Unit),
      n1 + n2 + n3 = 32 ∧ (n1 + 1) + (n2 + 1) + n3 ≤ BitsLeft s ∧
      ReadVLEPath n1 n2 n3 s = some (VLEPath.tier3, 4294967295, t) ∧
      ReadVLE n1 n2 n3 s = some (4294967295, t) ∧
      ReadVLEPath n1 n2 n3 u = some (VLEPath.exhausted1, 4294967295, u) ∧
      ReadVLE n1 n2 n3 u = some (VLEReadError, u) ∧ VLEReadError = 4294967295 :=
  ⟨8, 8, 16, DataDeserializer.init [255, 255, 255, 255, 255] none,
    { data := [255, 255, 255, 255, 255], size := 5, elemOfs := 4, bitOfs := 2, iter := none },
    DataDeserializer.init [255] none,
    by decide, by decide, by decide, by decide, by decide, by decide, by decide⟩

theorem or_shiftLeft_eq_add {a b n : Nat} (ha : a < 2 ^ n) : a ||| (b <<< n) = a + b * 2 ^ n := by
  rw [Nat.shiftLeft_eq, Nat.or_comm, Nat.mul_comm b, ← Nat.mul_add_lt_is_or ha b, Nat.add_comm]

theorem shiftLeft_lt_two_pow {x a n : Nat} (hx : x < 2 ^ a) : x <<< n < 2 ^ (n + a) := by
  rw [Nat.shiftLeft_eq, Nat.pow_add, Nat.mul_comm]
  exact Nat.mul_lt_mul_of_pos_left hx (Nat.two_pow_pos n)

theorem ReadVLEPath_inv_value {n1 n2 n3 : Nat} {s t : DataDeserializer W} {p : VLEPath}
    {v : Nat} (h : ReadVLEPath n1 n2 n3 s = some (p, v, t)) :
    (p = VLEPath.tier1 → v < 2 ^ n1) ∧
    (p = VLEPath.tier2 → ∃ sml med, sml < 2 ^ n1 ∧ med < 2 ^ n2 ∧
      v = sml ||| ((med <<< n1) % 4294967296)) ∧
    (p = VLEPath.tier3 → ∃ sml med large, sml < 2 ^ n1 ∧ med < 2 ^ n2 ∧ large < 2 ^ n3 ∧
      v = sml ||| ((med <<< n1) % 4294967296)
        ||| ((large <<< (n1 + n2)) % 4294967296)) := by
  by_cases h0 : BitsLeft s < n1 + 1
  · rw [ReadVLEPath_exhausted1 n1 n2 n3 s h0] at h
    simp only [Option.some.injEq, Prod.mk.injEq] at h
    obtain ⟨rfl, rfl, rfl⟩ := h
    exact ⟨(fun hp => by cases hp), (fun hp => by cases hp), (fun hp => by cases hp)⟩
  have h0' : n1 + 1 ≤ BitsLeft s := by omega
  cases hr : ReadBits (n1 + 1) s with
  | none => simp [ReadVLEPath, h0, hr] at h
  | some q1 =>
    obtain ⟨r1, s1⟩ := q1
    have hm1 : r1 % 2 ^ n1 < 2 ^ n1 := Nat.mod_lt _ (Nat.two_pow_pos n1)
    by_cases hb : r1.testBit n1 = false
    · rw [ReadVLEPath_tier1 n1 n2 n3 s s1 r1 h0' hr hb] at h
      simp only [Option.some.injEq, Prod.mk.injEq] at h
      obtain ⟨rfl, rfl, rfl⟩ := h
      exact ⟨fun _ => hm1, (fun hp => by cases hp), (fun hp => by cases hp)⟩
    have hb' : r1.testBit n1 = true := by simpa using hb
    by_cases h2 : BitsLeft s1 < n2 + (if n3 = 0 then 0 else 1)
    · rw [ReadVLEPath_exhausted2 n1 n2 n3 s s1 r1 h0' hr hb' h2] at h
      simp only [Option.some.injEq, Prod.mk.injEq] at h
      obtain ⟨rfl, rfl, rfl⟩ := h
      exact ⟨(fun hp => by cases hp), (fun hp => by cases hp), (fun hp => by cases hp)⟩
    have h2' : n2 + (if n3 = 0 then 0 else 1) ≤ BitsLeft s1 := by omega
    have hc : ¬ r1 &&& (1 <<< n1) = 0 := by
      rw [and_one_shiftLeft_eq_zero]; simp [hb']
    cases hr2 : ReadBits (n2 + (if n3 = 0 then 0 else 1)) s1 with
    | none => simp [ReadVLEPath, h0, hr, hc, h2, hr2] at h
    | some q2 =>
      obtain ⟨r2, s2⟩ := q2
      by_cases hn2 : 32 ≤ n2
      · simp [ReadVLEPath, h0, hr, hc, h2, hr2, hn2] at h
      have hn2' : n2 < 32 := by omega
      by_cases hb2 : r2.testBit n2 = false
      · rw [ReadVLEPath_tier2 n1 n2 n3 s s1 s2 r1 r2 h0' hr hb' h2' hr2 hn2' hb2] at h
        simp only [Option.some.injEq, Prod.mk.injEq] at h
        obtain ⟨rfl, rfl, rfl⟩ := h
        have hlt : r2 < 2 ^ n2 := by
          have hw := ReadBits_width_lt hr2
          by_cases hn3 : n3 = 0
          · rw [if_pos hn3, Nat.add_zero] at hw
            exact hw
          · rw [if_neg hn3] at hw
            exact lt_of_testBit_false hw hb2
        exact ⟨(fun hp => by cases hp), fun _ => ⟨_, _, hm1, hlt, rfl⟩, (fun hp => by cases hp)⟩
      have hb2' : r2.testBit n2 = true := by simpa using hb2
      by_cases h3 : BitsLeft s2 < n3
      · rw [ReadVLEPath_exhausted3 n1 n2 n3 s s1 s2 r1 r2 h0' hr hb' h2' hr2 hn2' hb2' h3] at h
        simp only [Option.some.injEq, Prod.mk.injEq] at h
        obtain ⟨rfl, rfl, rfl⟩ := h
        exact ⟨(fun hp => by cases hp), (fun hp => by cases hp), (fun hp => by cases hp)⟩
      have h3' : n3 ≤ BitsLeft s2 := by omega
      have hc2 : ¬ r2 &&& (1 <<< n2) = 0 := by
        rw [and_one_shiftLeft_eq_zero]; simp [hb2']
      cases hr3 : ReadBits n3 s2 with
      | none => simp [ReadVLEPath, h0, hr, hc, h2, hr2, hn2, hc2, h3, hr3] at h
      | some q3 =>
        obtain ⟨r3, s3⟩ := q3
        by_cases hn12 : 32 ≤ n1 + n2
        · simp [ReadVLEPath, h0, hr, hc, h2, hr2, hn2, hc2, h3, hr3, hn12] at h
        rw [ReadVLEPath_tier3 n1 n2 n3 s s1 s2 s3 r1 r2 r3 h0' hr hb' h2' hr2 hb2' h3' hr3
          (by omega)] at h
        simp only [Option.some.injEq, Prod.mk.injEq] at h
        obtain ⟨rfl, rfl, rfl⟩ := h
        exact ⟨(fun hp => by cases hp), (fun hp => by cases hp),
          fun _ => ⟨_, _, _, hm1, Nat.mod_lt _ (Nat.two_pow_pos n2), ReadBits_width_lt hr3, rfl⟩⟩

/-- C15: for widths with `numBits1 + numBits2 + numBits3 <= 32`, a `ReadVLE` call that takes no
exhaustion exit returns a value below `2^numBits1` when it ends at tier 1, below
`2^(numBits1+numBits2)` when it ends at tier 2 and below `2^(numBits1+numBits2+numBits3)` when
it reads tier 3; the tiers lie in disjoint bit ranges, so the OR of the shifted tiers is their
sum; and with `numBits1 + numBits2 + numBits3 <= 31` such a call never returns `0xFFFFFFFF`. -/
theorem ReadVLE_value_bounds (n1 n2 n3 : Nat) (s t : DataDeserializer W) (p : VLEPath)
    (v : Nat) (h32 : n1 + n2 + n3 ≤ 32) (h : ReadVLEPath n1 n2 n3 s = some (p, v, t)) :
    (p = VLEPath.tier1 → v < 2 ^ n1) ∧
    (p = VLEPath.tier2 → v < 2 ^ (n1 + n2) ∧
      ∃ sml med, sml < 2 ^ n1 ∧ med < 2 ^ n2 ∧ v = sml ||| (med <<< n1) ∧
        v = sml + med * 2 ^ n1) ∧
    (p = VLEPath.tier3 → v < 2 ^ (n1 + n2 + n3) ∧
      ∃ sml med large, sml < 2 ^ n1 ∧ med < 2 ^ n2 ∧ large < 2 ^ n3 ∧
        v = sml ||| (med <<< n1) ||| (large <<< (n1 + n2)) ∧
        v = sml + med * 2 ^ n1 + large * 2 ^ (n1 + n2)) ∧
    (n1 + n2 + n3 ≤ 31 →
      (p = VLEPath.tier1 ∨ p = VLEPath.tier2 ∨ p = VLEPath.tier3) → v ≠ 4294967295) := by
  obtain ⟨v1, v2, v3⟩ := ReadVLEPath_inv_value h
  have hn3 : p = VLEPath.tier3 → n3 ≠ 0 := fun q => ((ReadVLEPath_inv h).2.2.2.2.2 q).1
  have b2 : p = VLEPath.tier2 → v < 2 ^ (n1 + n2) ∧
      ∃ sml med, sml < 2 ^ n1 ∧ med < 2 ^ n2 ∧ v = sml ||| (med <<< n1) ∧
        v = sml + med * 2 ^ n1 := by
    intro q
    obtain ⟨sml, med, a, b, hv⟩ := v2 q
    rw [shiftLeft_mod_u32 b (by omega)] at hv
    refine ⟨?_, sml, med, a, b, hv, by rw [hv, or_shiftLeft_eq_add a]⟩
    rw [hv]
    exact Nat.or_lt_two_pow
      (Nat.lt_of_lt_of_le a (Nat.pow_le_pow_right (by decide) (by omega)))
      (shiftLeft_lt_two_pow b)
  have b3 : p = VLEPath.tier3 → v < 2 ^ (n1 + n2 + n3) ∧
      ∃ sml med large, sml < 2 ^ n1 ∧ med < 2 ^ n2 ∧ large < 2 ^ n3 ∧
        v = sml ||| (med <<< n1) ||| (large <<< (n1 + n2)) ∧
        v = sml + med * 2 ^ n1 + large * 2 ^ (n1 + n2) := by
    intro q
    obtain ⟨sml, med, large, a, b, c, hv⟩ := v3 q
    rw [shiftLeft_mod_u32 b (by omega), shiftLeft_mod_u32 c (by omega)] at hv
    have h12 : sml ||| (med <<< n1) < 2 ^ (n1 + n2) :=
      Nat.or_lt_two_pow
        (Nat.lt_of_lt_of_le a (Nat.pow_le_pow_right (by decide) (by omega)))
        (shiftLeft_lt_two_pow b)
    refine ⟨?_, sml, med, large, a, b, c, hv, ?_⟩
    · rw [hv]
      exact Nat.or_lt_two_pow
        (Nat.lt_of_lt_of_le h12 (Nat.pow_le_pow_right (by decide) (by omega)))
        (shiftLeft_lt_two_pow c)
    · rw [hv, or_shiftLeft_eq_add h12, or_shiftLeft_eq_add a]
  refine ⟨v1, b2, b3, fun h31 hp => ?_⟩
  have hpow : ∀ k, k ≤ 31 → v < 2 ^ k → v ≠ 4294967295 := by
    intro k hk hv
    have h1 : 2 ^ k ≤ 2 ^ 31 := Nat.pow_le_pow_right (by decide) hk
    have h2 : (2 : Nat) ^ 31 = 2147483648 := by norm_num
    omega
  rcases hp with q | q | q
  · exact hpow n1 (by omega) (v1 q)
  · exact hpow (n1 + n2) (by omega) (b2 q).1
  · exact hpow (n1 + n2 + n3) h31 (b3 q).1

/-- Witness of C15: the widths (7,7,16) on four bytes `0xFF` read all three tiers and return
`2^30 - 1`. -/
theorem ReadVLE_value_bounds_witness :
    ReadVLEPath 7 7 16 (DataDeserializer.init [255, 255, 255, 255] (none : Option Unit))
      = some (VLEPath.tier3, 1073741823,
          { data := [255, 255, 255, 255], size := 4, elemOfs := 4, bitOfs := 0, iter := none }) ∧
    1073741823 < 2 ^ (7 + 7 + 16) ∧ 1073741823 ≠ 4294967295 :=
  match ReadVLE_value_bounds 7 7 16
      (DataDeserializer.init [255, 255, 255, 255] (none : Option Unit))
      { data := [255, 255, 255, 255], size := 4, elemOfs := 4, bitOfs := 0, iter := none }
      VLEPath.tier3 1073741823 (by decide) (by decide) with
  | ⟨_, _, a, b⟩ => ⟨by decide, (a rfl).1, b (by decide) (Or.inr (Or.inr rfl))⟩

/-! ## C16: the remaining-length queries -/

/-- C16: for a state with `bitOfs` in `[0,7]` and `(size - elemOfs)*8 < 2^32`: `BitsLeft() == 0`
iff `BytesLeft() == 0` iff `elemOfs >= size`; when `elemOfs < size`,
`BitsLeft() == 8*BytesLeft() - BitPos()` and
`8*BytesLeft() - 7 <= BitsLeft() <= 8*BytesLeft()`; and both queries return 0 when
`elemOfs >= size`. -/
theorem BitsLeft_BytesLeft (s : DataDeserializer W) (hb : s.bitOfs ≤ 7)
    (hsz : (s.size - s.elemOfs) * 8 < 4294967296) :
    (BitsLeft s = 0 ↔ BytesLeft s = 0) ∧ (BytesLeft s = 0 ↔ s.elemOfs ≥ s.size) ∧
    (s.elemOfs < s.size →
      BitsLeft s = 8 * BytesLeft s - BitPos s ∧ BitPos s ≤ 8 * BytesLeft s ∧
      8 * BytesLeft s - 7 ≤ BitsLeft s ∧ BitsLeft s ≤ 8 * BytesLeft s ∧ 0 < BitsLeft s) ∧
    (s.elemOfs ≥ s.size → BitsLeft s = 0 ∧ BytesLeft s = 0) := by
  simp only [BitsLeft, BytesLeft, BitPos]
  refine ⟨?_, ?_, ?_, ?_⟩
  · split_ifs <;> omega
  · split_ifs <;> omega
  · intro h
    split_ifs <;> omega
  · intro h
    rw [if_pos h, if_pos h]
    exact ⟨rfl, rfl⟩

/-- Witness of C16: three bits into the second byte of a buffer of four bytes. -/
theorem BitsLeft_BytesLeft_witness :
    BitsLeft ({ data := [1, 2, 3, 4], size := 4, elemOfs := 1, bitOfs := 3, iter := none } :
        DataDeserializer Unit)
      = 8 * BytesLeft ({ data := [1, 2, 3, 4], size := 4, elemOfs := 1, bitOfs := 3,
                         iter := none } : DataDeserializer Unit)
        - BitPos ({ data := [1, 2, 3, 4], size := 4, elemOfs := 1, bitOfs := 3,
                    iter := none } : DataDeserializer Unit) :=
  ((BitsLeft_BytesLeft
    ({ data := [1, 2, 3, 4], size := 4, elemOfs := 1, bitOfs := 3, iter := none } :
      DataDeserializer Unit) (by decide) (by decide)).2.2.1 (by decide)).1

/-! ## C13, C14: the log channels -/

theorem writeLogLine_lines (errorStr clock : String) (st : LogState) :
    (writeLogLine errorStr clock st).lines = st.lines + 1 := by
  cases st with
  | mk a f o fc =>
    cases f <;> cases fc <;> simp [writeLogLine, Time, LogState.lines] <;> omega

theorem writeLogLine_channels (errorStr clock : String) (st : LogState) :
    (writeLogLine errorStr clock st).kNetActiveLogChannels = st.kNetActiveLogChannels := by
  cases st with
  | mk a f o fc =>
    cases f <;> cases fc <;> simp [writeLogLine, Time]

theorem LogCall_run_channels (c : LogCall) (st : LogState) :
    (c.run st).kNetActiveLogChannels = st.kNetActiveLogChannels := by
  simp only [LogCall.run, TimeOutputDebugString, TimeOutputDebugStringVariadic]
  split_ifs <;> first | rfl | exact writeLogLine_channels _ _ _

theorem runLogCalls_channels (cs : List LogCall) (st : LogState) :
    (runLogCalls cs st).kNetActiveLogChannels = st.kNetActiveLogChannels := by
  induction cs generalizing st with
  | nil => rfl
  | cons c cs ih => rw [runLogCalls, ih, LogCall_run_channels]

/-- C13: for every channel mask `c`, every state of the logging facility with active mask `a`
and every message, `TimeOutputDebugString` and `TimeOutputDebugStringVariadic` write one line
to the log if `(c & a) != 0` and leave the whole state as it is otherwise, so a line is emitted
if and only if `(c & a) != 0`; neither call changes the active mask; and after
`SetLogChannels(0)` a call on any channel changes nothing. -/
theorem log_emits_iff (c : Nat) (msg clock : String) (st : LogState) :
    ((TimeOutputDebugString c msg clock st).lines = st.lines + 1
        ↔ c &&& GetLogChannels st ≠ 0) ∧
    (c &&& GetLogChannels st = 0 → TimeOutputDebugString c msg clock st = st) ∧
    GetLogChannels (TimeOutputDebugString c msg clock st) = GetLogChannels st ∧
    ((TimeOutputDebugStringVariadic c msg clock st).lines = st.lines + 1
        ↔ c &&& GetLogChannels st ≠ 0) ∧
    (c &&& GetLogChannels st = 0 → TimeOutputDebugStringVariadic c msg clock st = st) ∧
    GetLogChannels (TimeOutputDebugStringVariadic c msg clock st) = GetLogChannels st ∧
    TimeOutputDebugString c msg clock (SetLogChannels 0 st) = SetLogChannels 0 st ∧
    TimeOutputDebugStringVariadic c msg clock (SetLogChannels 0 st) = SetLogChannels 0 st := by
  simp only [GetLogChannels]
  refine ⟨?_, ?_, ?_, ?_, ?_, ?_, ?_, ?_⟩
  · by_cases h : c &&& st.kNetActiveLogChannels = 0
    · simp [TimeOutputDebugString, h]
    · simp [TimeOutputDebugString, h, writeLogLine_lines]
  · intro h
    simp [TimeOutputDebugString, h]
  · by_cases h : c &&& st.kNetActiveLogChannels = 0
    · simp [TimeOutputDebugString, h]
    · simp [TimeOutputDebugString, h, writeLogLine_channels]
  · by_cases h : c &&& st.kNetActiveLogChannels = 0
    · simp [TimeOutputDebugStringVariadic, h]
    · simp [TimeOutputDebugStringVariadic, h, writeLogLine_lines]
  · intro h
    simp [TimeOutputDebugStringVariadic, h]
  · by_cases h : c &&& st.kNetActiveLogChannels = 0
    · simp [TimeOutputDebugStringVariadic, h]
    · simp [TimeOutputDebugStringVariadic, h, writeLogLine_channels]
  · simp [TimeOutputDebugString, SetLogChannels]
  · simp [TimeOutputDebugStringVariadic, SetLogChannels]

/-- Witness of C13: with the default mask a message on `LogInfo` is muted. -/
theorem log_emits_iff_witness :
    TimeOutputDebugString LogInfo "connected" "1.5" LogState.initial = LogState.initial :=
  (log_emits_iff LogInfo "connected" "1.5" LogState.initial).2.1 (by decide)

/-- C14: `GetLogChannels()` returns the active mask: after `SetLogChannels(c)`, and after any
logging calls behind it, it returns exactly `c`; before any `SetLogChannels` call it returns
`LogUser`, which is 1, so of the six named channels 1, 2, 4, 8, 16, 32 only the user channel
is enabled by default. -/
theorem GetLogChannels_SetLogChannels (c : Nat) (st : LogState) (calls : List LogCall) :
    GetLogChannels (SetLogChannels c st) = c ∧
    GetLogChannels (runLogCalls calls (SetLogChannels c st)) = c ∧
    GetLogChannels LogState.initial = LogUser ∧ LogUser = 1 ∧
    GetLogChannels (runLogCalls calls LogState.initial) = 1 ∧
    [LogUser, LogInfo, LogError, LogObjectAlloc, LogData, LogVerbose] = [1, 2, 4, 8, 16, 32] ∧
    (∀ ch, ch ∈ [LogUser, LogInfo, LogError, LogObjectAlloc, LogData, LogVerbose] →
      (ch &&& GetLogChannels LogState.initial ≠ 0 ↔ ch = LogUser)) := by
  refine ⟨rfl, ?_, rfl, rfl, ?_, rfl, by decide⟩
  · simp only [GetLogChannels, runLogCalls_channels, SetLogChannels]
  · simp only [GetLogChannels, runLogCalls_channels]
    rfl

/-- Witness of C14: the mask `LogError | LogData` set and read back behind one logging call. -/
theorem GetLogChannels_SetLogChannels_witness :
    GetLogChannels (runLogCalls
      [{ variadic := false, logChannel := 4, msg := "lost", clock := "2.25" }]
      (SetLogChannels 20 LogState.initial)) = 20 :=
  (GetLogChannels_SetLogChannels 20 LogState.initial
    [{ variadic := false, logChannel := 4, msg := "lost", clock := "2.25" }]).2.1

end kNet
